import Mathlib

/-!
Shallow embedding of the MIR → CPG → embedding pipeline of `script.py`:
the `MIRParser`, `CPGBuilder`, `VectorizerAndStorer.vectorize_graph`
(dimension normalization) and `process_functions` orchestration.

Lines of text are modelled as lists of characters (`Str`); the Python
regular expressions are translated into explicit deterministic matchers.
Python's `\s` is modelled as space/tab/CR/LF and `\d` as the ASCII digits,
which coincide on the ASCII MIR dumps the script consumes.
-/

namespace MirCpg

abbrev Str := List Char

def braceO : Char := '\x7b'

def braceC : Char := '\x7d'

def wsChar (c : Char) : Bool := c == ' ' || c == '\t' || c == '\n' || c == '\r'

def digitChar (c : Char) : Bool := '0' ≤ c && c ≤ '9'

/-- Python `str.strip()` on the left. -/
def dropWS (s : Str) : Str := s.dropWhile wsChar

/-- Python `str.strip()` on the right. -/
def trimR (s : Str) : Str := (s.reverse.dropWhile wsChar).reverse

/-- Python `str.strip()`. -/
def trim (s : Str) : Str := trimR (dropWS s)

/-- Tests whether `pat` is a prefix of `s` (used for anchored literal pieces). -/
def strPrefix : Str → Str → Bool
  | [], _ => true
  | _, [] => false
  | a :: p, b :: s => a == b && strPrefix p s

/-- Python `pat in s`: substring containment. -/
def hasSub : Str → Str → Bool
  | s, pat =>
    if strPrefix pat s then true
    else match s with
      | [] => false
      | _ :: t => hasSub t pat

/-- Python `MIRParser._FUNC_START = ^\s*fn\s+([^\s(]+)` applied with `.match`:
returns the captured function name. -/
def funcStart (line : Str) : Option Str :=
  let t := dropWS line
  if strPrefix ['f', 'n'] t then
    match t.drop 2 with
    | [] => none
    | c :: _ =>
      if wsChar c then
        let v := dropWS (t.drop 2)
        let name := v.takeWhile (fun c => !wsChar c && c != '(')
        if name.isEmpty then none else some name
      else none
  else none

/-- Python `MIRParser._BLOCK_RE = ^\s*(bb\d+):` applied with `.match`:
returns the captured block label. -/
def blockLabel (s : Str) : Option Str :=
  let t := dropWS s
  if strPrefix ['b', 'b'] t then
    let u := t.drop 2
    let ds := u.takeWhile digitChar
    if ds.isEmpty then none
    else match u.drop ds.length with
      | ':' :: _ => some ('b' :: 'b' :: ds)
      | _ => none
  else none

/-- Match of `;\s*$` preceded by a lazy `.*?` (with an absorbed `\s*` before
it): the remainder matches iff its last non-whitespace character is `;`;
the unique admissible `;` is that last non-whitespace character. -/
def endsWithSemi (r : Str) : Bool := (trimR r).getLast? == some ';'

/-- Python `:\s*(.*?);\s*$`: returns the captured group (the declared type). -/
def colonTail (r : Str) : Option Str :=
  match r with
  | ':' :: r1 =>
    let r2 := dropWS r1
    if (trimR r2).getLast? == some ';' then some (trimR r2).dropLast else none
  | _ => none

/-- Scan for the lazy `\[.*?\]` of `_DECL_RE` followed by `:\s*(.*?);\s*$`:
the first `]` whose remainder completes the match wins (backtracking extends
the lazy group past earlier failing candidates). Returns (consumed suffix of
group 1, captured type). -/
def scanBrkD (acc : Str) : Str → Option (Str × Str)
  | [] => none
  | c :: t =>
    if c == ']' then
      match colonTail t with
      | some ty => some (acc ++ [c], ty)
      | none => scanBrkD (acc ++ [c]) t
    else scanBrkD (acc ++ [c]) t

/-- Scan for the lazy `\..*?` of `_DECL_RE` followed by `:\s*(.*?);\s*$`:
shortest extension first. -/
def scanDotD (acc : Str) (s : Str) : Option (Str × Str) :=
  match colonTail s with
  | some ty => some (acc, ty)
  | none =>
    match s with
    | [] => none
    | c :: t => scanDotD (acc ++ [c]) t

/-- The part of `_DECL_RE` after `_\d+`: `(?:\[.*?\]|\..*?)?:\s*(.*?);\s*$`. -/
def declAfterVar : Str → Option (Str × Str)
  | '[' :: r => scanBrkD ['['] r
  | '.' :: r => scanDotD ['.'] r
  | v => (colonTail v).map (fun ty => (([] : Str), ty))

/-- Python `MIRParser._DECL_RE = ^\s*let\s+(?:mut\s+)?(_\d+(?:\[.*?\]|\..*?)?):\s*(.*?);\s*$`
applied with `.match`: returns the captured (local, type). -/
def declParse (s : Str) : Option (Str × Str) :=
  let t := dropWS s
  if strPrefix ['l', 'e', 't'] t then
    match t.drop 3 with
    | [] => none
    | c :: _ =>
      if wsChar c then
        let u1 := dropWS (t.drop 3)
        let u2 :=
          if strPrefix ['m', 'u', 't'] u1 then
            match u1.drop 3 with
            | c2 :: _ => if wsChar c2 then dropWS (u1.drop 3) else u1
            | [] => u1
          else u1
        match u2 with
        | '_' :: v =>
          let ds := v.takeWhile digitChar
          if ds.isEmpty then none
          else
            match declAfterVar (v.drop ds.length) with
            | some (suf, ty) => some ('_' :: ds ++ suf, ty)
            | none => none
        | _ => none
      else none
  else none

/-- Python `\s*=\s*(.*);\s*$` (the tail of `_ASSIGN_RE`): the greedy `(.*)` picks
the unique `;` that is the last non-whitespace character; the captured
right-hand side starts after the whitespace following `=`. -/
def eqTail (r : Str) : Option Str :=
  match dropWS r with
  | '=' :: rest =>
    let r2 := dropWS rest
    if (trimR r2).getLast? == some ';' then some (trimR r2).dropLast else none
  | _ => none

/-- Scan for the lazy `\[.*?\]` of `_ASSIGN_RE` followed by `\s*=\s*(.*);\s*$`. -/
def scanBrkA (acc : Str) : Str → Option (Str × Str)
  | [] => none
  | c :: t =>
    if c == ']' then
      match eqTail t with
      | some rhs => some (acc ++ [c], rhs)
      | none => scanBrkA (acc ++ [c]) t
    else scanBrkA (acc ++ [c]) t

/-- Scan for the lazy `\..*?` of `_ASSIGN_RE` followed by `\s*=\s*(.*);\s*$`:
shortest extension first. -/
def scanDotA (acc : Str) (s : Str) : Option (Str × Str) :=
  match eqTail s with
  | some rhs => some (acc, rhs)
  | none =>
    match s with
    | [] => none
    | c :: t => scanDotA (acc ++ [c]) t

/-- The part of `_ASSIGN_RE` after `_\d+`: `(?:\[.*?\]|\..*?)?\s*=\s*(.*);\s*$`. -/
def assignAfterVar : Str → Option (Str × Str)
  | '[' :: r => scanBrkA ['['] r
  | '.' :: r => scanDotA ['.'] r
  | v => (eqTail v).map (fun rhs => (([] : Str), rhs))

/-- Python `CPGBuilder._ASSIGN_RE = ^\s*(_\d+(?:\[.*?\]|\..*?)?)\s*=\s*(.*);\s*$`
applied with `.match`: returns the captured (LHS target, RHS). -/
def assignMatch (w : Str) : Option (Str × Str) :=
  match dropWS w with
  | '_' :: v =>
    let ds := v.takeWhile digitChar
    if ds.isEmpty then none
    else
      match assignAfterVar (v.drop ds.length) with
      | some (suf, rhs) => some ('_' :: ds ++ suf, rhs)
      | none => none
  | _ => none

/-- Character scanner for `(_\d+)`: `none` when outside a candidate match,
`some ds` when inside one (`ds` holds the digits seen so far, reversed).
A failed candidate restarts the scan at the failing character, matching the
regex engine's advance-by-one retry for this pattern. -/
def localsGo : Str → Option (List Char) → List Str
  | [], none => []
  | [], some ds => if ds.isEmpty then [] else ['_' :: ds.reverse]
  | c :: t, none => if c = '_' then localsGo t (some []) else localsGo t none
  | c :: t, some ds =>
    if digitChar c then localsGo t (some (c :: ds))
    else if ds.isEmpty then
      if c = '_' then localsGo t (some []) else localsGo t none
    else
      ('_' :: ds.reverse) :: (if c = '_' then localsGo t (some []) else localsGo t none)

/-- Python `CPGBuilder._LOCAL_RE.findall`, pattern `(_\d+)`: all leftmost
non-overlapping matches. -/
def localsOf (s : Str) : List Str := localsGo s none

/-- Python `CPGBuilder._LOCAL_RE.match`, pattern `(_\d+)` anchored at the start:
the base identifier of an assignment target. -/
def localBase : Str → Option Str
  | '_' :: r =>
    let ds := r.takeWhile digitChar
    if ds.isEmpty then none else some ('_' :: ds)
  | _ => none

/-- Python `CPGBuilder._GOTO_RE = goto\s*->\s*(bb\d+);` anchored at the current
position. -/
def gotoAt (s : Str) : Option Str :=
  if strPrefix ['g', 'o', 't', 'o'] s then
    let r := dropWS (s.drop 4)
    if strPrefix ['-', '>'] r then
      let r2 := dropWS (r.drop 2)
      if strPrefix ['b', 'b'] r2 then
        let ds := (r2.drop 2).takeWhile digitChar
        if ds.isEmpty then none
        else match (r2.drop 2).drop ds.length with
          | ';' :: _ => some ('b' :: 'b' :: ds)
          | _ => none
      else none
    else none
  else none

/-- Python `CPGBuilder._GOTO_RE.search`: leftmost match. -/
def gotoSearch : Str → Option Str
  | [] => none
  | c :: t =>
    match gotoAt (c :: t) with
    | some r => some r
    | none => gotoSearch t

/-- Python `->\s*\[(.*?)\]` scanned rightwards (the lazy `.*?` of `_SWITCH_RE`
extends past failing candidates): at each `->`, after optional whitespace,
expect `[` and capture lazily up to the first `]`. -/
def arrowBracket : Str → Option Str
  | [] => none
  | c :: t =>
    match
      (if strPrefix ['-', '>'] (c :: t) then
        match dropWS ((c :: t).drop 2) with
        | '[' :: r2 => if r2.contains ']' then some (r2.takeWhile (· != ']')) else none
        | _ => none
      else none) with
    | some r => some r
    | none => arrowBracket t

/-- Python `CPGBuilder._SWITCH_RE = switchInt.*?->\s*\[(.*?)\]` applied with
`.search`: leftmost `switchInt` occurrence that completes to a match;
returns the captured bracket content. -/
def switchSearch : Str → Option Str
  | [] => none
  | c :: t =>
    match
      (if strPrefix "switchInt".toList (c :: t) then arrowBracket ((c :: t).drop 9)
       else none) with
    | some r => some r
    | none => switchSearch t

/-- Scanner state for `bb\d+`: nothing matched, one `b`, two `b`s, or
inside the digit run (digits reversed). -/
inductive BBScan where
  | s0
  | s1
  | s2
  | digs (ds : List Char)

/-- Restart the `bb\d+` scan at a fresh character. -/
def bbStep0 (c : Char) : BBScan := if c = 'b' then .s1 else .s0

/-- Character scanner for `bb\d+` with the regex engine's advance-by-one
retry on a failed candidate. -/
def findBBsGo : Str → BBScan → List Str
  | [], .digs ds => ['b' :: 'b' :: ds.reverse]
  | [], _ => []
  | c :: t, .s0 => findBBsGo t (bbStep0 c)
  | c :: t, .s1 => findBBsGo t (if c = 'b' then .s2 else bbStep0 c)
  | c :: t, .s2 =>
    if digitChar c then findBBsGo t (.digs [c])
    else findBBsGo t (if c = 'b' then .s2 else bbStep0 c)
  | c :: t, .digs ds =>
    if digitChar c then findBBsGo t (.digs (c :: ds))
    else ('b' :: 'b' :: ds.reverse) :: findBBsGo t (bbStep0 c)

/-- Python `re.findall("bb\d+", s)`: all leftmost non-overlapping block tokens. -/
def findBBs (s : Str) : List Str := findBBsGo s .s0

/-- Python `bb\d+` anchored at the current position (helper for `_CALL_RE`). -/
def bbAt (s : Str) : Option (Str × Str) :=
  if strPrefix ['b', 'b'] s then
    let ds := (s.drop 2).takeWhile digitChar
    if ds.isEmpty then none else some ('b' :: 'b' :: ds, (s.drop 2).drop ds.length)
  else none

/-- Python `CPGBuilder._CALL_RE = ->\s*\[return:\s*(bb\d+),\s*unwind:\s*(bb\d+)\];`
anchored at the current position. -/
def callAt (s : Str) : Option (Str × Str) :=
  if strPrefix ['-', '>'] s then
    let r := dropWS (s.drop 2)
    if strPrefix ('[' :: "return:".toList) r then
      let r2 := dropWS (r.drop 8)
      match bbAt r2 with
      | none => none
      | some (t1, rest1) =>
        match rest1 with
        | ',' :: rest2 =>
          let r3 := dropWS rest2
          if strPrefix "unwind:".toList r3 then
            let r4 := dropWS (r3.drop 7)
            match bbAt r4 with
            | none => none
            | some (t2, rest4) =>
              match rest4 with
              | ']' :: ';' :: _ => some (t1, t2)
              | _ => none
          else none
        | _ => none
    else none
  else none

/-- Python `CPGBuilder._CALL_RE.search`: leftmost match. -/
def callSearch : Str → Option (Str × Str)
  | [] => none
  | c :: t =>
    match callAt (c :: t) with
    | some r => some r
    | none => callSearch t

/-- A `let` declaration as stored by `MIRParser._parse_function_block`. -/
structure Decl where
  localVar : Str
  ty : Str
  raw : Str
deriving DecidableEq

/-- A basic block: statement raws and the (last) terminator raw. -/
structure BBlock where
  statements : List Str
  terminator : Option Str
deriving DecidableEq

/-- One function's parsed record; `basicBlocks` is the insertion-ordered
dict from block label to block. -/
structure FuncRec where
  declarations : List Decl
  basicBlocks : List (Str × BBlock)
deriving DecidableEq

/-- Python dict assignment `d[k] = v`: replace in place if the key exists
(keeping its position), else append. -/
def dinsert (k : Str) (v : BBlock) : List (Str × BBlock) → List (Str × BBlock)
  | [] => [(k, v)]
  | (k', v') :: t => if k' = k then (k, v) :: t else (k', v') :: dinsert k v t

/-- In-place mutation of the entry at an existing key
(`basic_blocks[current_block]["statements"].append` and the terminator
assignment). -/
def dupdate (k : Str) (f : BBlock → BBlock) : List (Str × BBlock) → List (Str × BBlock)
  | [] => []
  | (k', v') :: t => if k' = k then (k', f v') :: t else (k', v') :: dupdate k f t

/-- Dict lookup. -/
def bbFind (k : Str) : List (Str × BBlock) → Option BBlock
  | [] => none
  | (k', v') :: t => if k' = k then some v' else bbFind k t

/-- The terminator heuristic of `_parse_function_block`: the line contains
one of the literal markers. -/
def isTermLine (s : Str) : Bool :=
  hasSub s "->".toList || hasSub s "return;".toList || hasSub s "unreachable;".toList ||
    hasSub s "resume;".toList || hasSub s "abort;".toList

/-- State of the body loop of `_parse_function_block`. -/
structure PFState where
  decls : List Decl
  blocks : List (Str × BBlock)
  curBlock : Option Str
deriving DecidableEq

/-- The `for raw in lines` loop of `MIRParser._parse_function_block`,
with the `in_body` flag; the `break` on a bare closing brace returns the
state unchanged. -/
def fnBody : List Str → Bool → PFState → PFState
  | [], _, st => st
  | raw :: rest, inBody, st =>
    let s := trim raw
    if !inBody then
      if hasSub s [braceO] then fnBody rest true st else fnBody rest false st
    else if s = [braceC] then st
    else
      match declParse s with
      | some (lv, ty) => fnBody rest true { st with decls := st.decls ++ [⟨lv, ty, s⟩] }
      | none =>
        match blockLabel s with
        | some lbl =>
          fnBody rest true
            { st with blocks := dinsert lbl ⟨[], none⟩ st.blocks, curBlock := some lbl }
        | none =>
          match st.curBlock with
          | none => fnBody rest true st
          | some cb =>
            if s.isEmpty || strPrefix ['/', '/'] s then fnBody rest true st
            else if isTermLine s then
              fnBody rest true
                { st with blocks := dupdate cb (fun b => { b with terminator := some s }) st.blocks }
            else
              fnBody rest true
                { st with blocks := dupdate cb (fun b => { b with statements := b.statements ++ [s] }) st.blocks }

/-- Python `MIRParser._parse_function_block`: `None` models the early `return`
when the first line does not match `_FUNC_START` (no record is stored). -/
def parseFunctionBlock (lines : List Str) : Option (Str × FuncRec) :=
  match lines with
  | [] => none
  | l0 :: _ =>
    match funcStart l0 with
    | none => none
    | some name =>
      let st := fnBody lines false ⟨[], [], none⟩
      some (name, ⟨st.decls, st.blocks⟩)

/-- Python `self.functions[fn_name] = ...`: dict assignment on the function map. -/
def finsert (k : Str) (v : FuncRec) : List (Str × FuncRec) → List (Str × FuncRec)
  | [] => [(k, v)]
  | (k', v') :: t => if k' = k then (k, v) :: t else (k', v') :: finsert k v t

/-- Store the accumulated lines of one function (the
`self._parse_function_block(current)` call sites in `parse`). -/
def commitFn (cur : List Str) (fns : List (Str × FuncRec)) : List (Str × FuncRec) :=
  match parseFunctionBlock cur with
  | some (n, r) => finsert n r fns
  | none => fns

/-- The line loop of `MIRParser.parse`, carrying `current`, `in_fn`
and the function map. -/
def parseLoop : List Str → List Str → Bool → List (Str × FuncRec) → List (Str × FuncRec)
  | [], cur, inFn, fns => if inFn ∧ cur ≠ [] then commitFn cur fns else fns
  | l :: rest, cur, inFn, fns =>
    if (funcStart l).isSome then
      parseLoop rest [l] true (if inFn ∧ cur ≠ [] then commitFn cur fns else fns)
    else if inFn then parseLoop rest (cur ++ [l]) true fns
    else parseLoop rest cur false fns

/-- Python `MIRParser.parse` on the file's lines. -/
def parseMIR (lines : List Str) : List (Str × FuncRec) :=
  parseLoop lines [] false []

/-- Node type discriminant. -/
inductive NType where
  | stmt
  | term
deriving DecidableEq

/-- A CPG node payload. -/
structure Node where
  ntype : NType
  raw : Str
  block : Str
deriving DecidableEq

/-- Edge payload: a CFG edge with its label, or a DFG edge. -/
inductive EData where
  | cfg (label : Str)
  | dfg
deriving DecidableEq

structure Edge where
  src : Nat
  dst : Nat
  data : EData
deriving DecidableEq

/-- The `rustworkx.PyDiGraph(multigraph=True)`: nodes are indexed by
position (the handle `add_node` returns), edges are a list. -/
structure Graph where
  nodes : List Node
  edges : List Edge
deriving DecidableEq

def Graph.empty : Graph := ⟨[], []⟩

/-- Python `graph.add_node`: appends and returns the fresh handle. -/
def Graph.addNode (g : Graph) (n : Node) : Graph × Nat :=
  ({ g with nodes := g.nodes ++ [n] }, g.nodes.length)

/-- Python `graph.add_edge`. -/
def Graph.addEdge (g : Graph) (u v : Nat) (d : EData) : Graph :=
  { g with edges := g.edges ++ [⟨u, v, d⟩] }

def Graph.numNodes (g : Graph) : Nat := g.nodes.length

def Graph.numEdges (g : Graph) : Nat := g.edges.length

/-- Key of `CPGBuilder.node_map`: `(block, i)` or `(block, "term")`. -/
inductive MKey where
  | idx (i : Nat)
  | term
deriving DecidableEq

abbrev NodeMap := List ((Str × MKey) × Nat)

/-- Python `node_map.get`. -/
def nmFind (nm : NodeMap) (k : Str × MKey) : Option Nat :=
  match nm with
  | [] => none
  | (k', v) :: t => if k' = k then some v else nmFind t k

/-- The inner statement loop of `CPGBuilder._create_nodes`. -/
def addStmts (block : Str) : List Str → Nat → Graph → NodeMap → Graph × NodeMap
  | [], _, g, nm => (g, nm)
  | s :: rest, i, g, nm =>
    let p := g.addNode ⟨.stmt, s, block⟩
    addStmts block rest (i + 1) p.1 (nm ++ [((block, .idx i), p.2)])

/-- Python `CPGBuilder._create_nodes`: iterate blocks in dict order, statements
then terminator. -/
def createNodes : List (Str × BBlock) → Graph → NodeMap → Graph × NodeMap
  | [], g, nm => (g, nm)
  | (b, bb) :: rest, g, nm =>
    let p := addStmts b bb.statements 0 g nm
    match bb.terminator with
    | some t =>
      let q := p.1.addNode ⟨.term, t, b⟩
      createNodes rest q.1 (p.2 ++ [((b, .term), q.2)])
    | none => createNodes rest p.1 p.2

/-- Python `CPGBuilder._add_cfg`: destination is the target block's first
statement node, else its terminator node, else the edge is dropped. -/
def addCfg (nm : NodeMap) (g : Graph) (srcNode : Nat) (targetBlock : Str) (label : Str) : Graph :=
  match nmFind nm (targetBlock, .idx 0) with
  | some t => g.addEdge srcNode t (.cfg label)
  | none =>
    match nmFind nm (targetBlock, .term) with
    | some t => g.addEdge srcNode t (.cfg label)
    | none => g

/-- The body of `CPGBuilder._create_cfg_edges` for one terminator raw:
the three patterns are checked independently. -/
def cfgForTerm (nm : NodeMap) (g : Graph) (src : Nat) (raw : Str) : Graph :=
  let g1 :=
    match gotoSearch raw with
    | some t => addCfg nm g src t "goto".toList
    | none => g
  let g2 :=
    match switchSearch raw with
    | some inner => (findBBs inner).foldl (fun h t => addCfg nm h src t "switch".toList) g1
    | none => g1
  match callSearch raw with
  | some (t1, t2) => addCfg nm (addCfg nm g2 src t1 "return".toList) src t2 "unwind".toList
  | none => g2

/-- Python `CPGBuilder._create_cfg_edges`. -/
def createCfgEdges (blocks : List (Str × BBlock)) (nm : NodeMap) (g : Graph) : Graph :=
  blocks.foldl
    (fun h p =>
      match p.2.terminator with
      | none => h
      | some raw =>
        match nmFind nm (p.1, .term) with
        | none => h
        | some src => cfgForTerm nm h src raw)
    g

/-- Python `int(label[2:])` for a `bbN` label. -/
def labelNum (lbl : Str) : Nat :=
  (lbl.drop 2).foldl (fun n c => n * 10 + (c.toNat - 48)) 0

/-- Stable insertion (elements with key less than or equal stay in front):
folding it over a list is a stable sort, hence agrees with Python's
`sorted(..., key=...)`. -/
def insertStable (key : Str × BBlock → Nat) (x : Str × BBlock) :
    List (Str × BBlock) → List (Str × BBlock)
  | [] => [x]
  | y :: t => if key y ≤ key x then y :: insertStable key x t else x :: y :: t

/-- Python `sorted(self.parsed_mir["basic_blocks"].items(), key=lambda x: int(x[0][2:]))`. -/
def sortBlocks (blocks : List (Str × BBlock)) : List (Str × BBlock) :=
  blocks.foldl (fun acc x => insertStable (fun p => labelNum p.1) x acc) []

abbrev Defs := List (Str × Nat)

/-- Python `self.definitions` lookup. -/
def defsFind (defs : Defs) (k : Str) : Option Nat :=
  match defs with
  | [] => none
  | (k', v) :: t => if k' = k then some v else defsFind t k

/-- Python `self.definitions[base] = node_id`. -/
def defsInsert (k : Str) (v : Nat) : Defs → Defs
  | [] => [(k, v)]
  | (k', v') :: t => if k' = k then (k, v) :: t else (k', v') :: defsInsert k v t

/-- Python `set(...)` iterated: deduplication (first occurrences kept;
the iteration order of the set does not affect which edges exist). -/
def firstDedup (xs : List Str) : List Str :=
  xs.foldl (fun acc x => if x ∈ acc then acc else acc ++ [x]) []

/-- Add one DFG edge per used variable that has a current definition. -/
def addUseEdges (defs : Defs) (nodeId : Nat) (uses : List Str) (g : Graph) : Graph :=
  uses.foldl
    (fun h v =>
      match defsFind defs v with
      | some d => h.addEdge d nodeId .dfg
      | none => h)
    g

/-- Python `CPGBuilder._process_dfg`. -/
def processDfg (raw : Str) (nodeId : Nat) (g : Graph) (defs : Defs) : Graph × Defs :=
  match assignMatch raw with
  | some (target, rhs) =>
    let g1 := addUseEdges defs nodeId (firstDedup (localsOf rhs)) g
    match localBase target with
    | some base => (g1, defsInsert base nodeId defs)
    | none => (g1, defs)
  | none => (addUseEdges defs nodeId (firstDedup (localsOf raw)) g, defs)

/-- The inner `for i, stmt in enumerate(...)` of `_create_dfg_edges`:
statement raws with their node handles `node_map[(block, i)]`, from
index `i`. -/
def dfgStmtSeq (nm : NodeMap) (b : Str) : List Str → Nat → List (Nat × Str)
  | [], _ => []
  | s :: rest, i => ((nmFind nm (b, .idx i)).getD 0, s) :: dfgStmtSeq nm b rest (i + 1)

/-- The node visit sequence of `CPGBuilder._create_dfg_edges`: blocks in
numeric label order, statements (with `node_map[(block, i)]`) then the
terminator (with `node_map[(block, "term")]`). -/
def dfgSeq (nm : NodeMap) (blocks : List (Str × BBlock)) : List (Nat × Str) :=
  (sortBlocks blocks).flatMap fun p =>
    dfgStmtSeq nm p.1 p.2.statements 0
      ++ (match p.2.terminator with
          | some t => [((nmFind nm (p.1, .term)).getD 0, t)]
          | none => [])

/-- Python `CPGBuilder._create_dfg_edges` (the definitions dict starts empty for
each builder instance). -/
def createDfgEdges (blocks : List (Str × BBlock)) (nm : NodeMap) (g : Graph) : Graph :=
  ((dfgSeq nm blocks).foldl (fun acc p => processDfg p.2 p.1 acc.1 acc.2) (g, ([] : Defs))).1

/-- Python `CPGBuilder.build_graph` for one function record (a fresh builder:
empty graph, empty node map, empty definitions). -/
def buildGraph (f : FuncRec) : Graph :=
  let p := createNodes f.basicBlocks Graph.empty []
  createDfgEdges f.basicBlocks p.2 (createCfgEdges f.basicBlocks p.2 p.1)

/-- The dimension normalization at the end of
`VectorizerAndStorer.vectorize_graph`: truncate when longer than the
target, right-pad with zeros when shorter. -/
def normalizeEmb (target : Nat) (emb : List Int) : List Int :=
  if emb.length ≠ target then
    if emb.length > target then emb.take target else emb ++ List.replicate (target - emb.length) 0
  else emb

/-- Python `VectorizerAndStorer.vectorize_graph`: `None` for an empty graph, else
the normalized embedding. The projection to an undirected simple graph and
the FeatherGraph model (external `karateclub` library) are abstracted into
the parameter `feather`, the natural-output vector of the algorithm. -/
def vectorizeGraph (feather : Graph → List Int) (target : Nat) (g : Graph) :
    Option (List Int) :=
  if g.numNodes = 0 then none else some (normalizeEmb target (feather g))

/-- One record inserted into the vector store (the metadata fields of
`process_functions` that the pipeline computes). -/
structure Stored where
  functionName : Str
  nodeCount : Nat
  edgeCount : Nat
  vec : List Int
deriving DecidableEq

/-- Python `process_functions`: iterate the parsed functions, build, embed,
skip-with-notice on an empty embedding, else store. The embedding step may
raise (the `Except` error); the loop body contains no handler, so an
exception propagates and aborts the batch. Returns (stored records, names
skipped with the `[skip]` notice). -/
def processFunctions (embed : Graph → Except String (Option (List Int))) :
    List (Str × FuncRec) → (List Stored × List Str) → Except String (List Stored × List Str)
  | [], acc => .ok acc
  | (fn, fnMir) :: rest, acc =>
    let g := buildGraph fnMir
    match embed g with
    | .error e => .error e
    | .ok none => processFunctions embed rest (acc.1, acc.2 ++ [fn])
    | .ok (some v) =>
      processFunctions embed rest (acc.1 ++ [⟨fn, g.numNodes, g.numEdges, v⟩], acc.2)

/-- The non-raising instantiation of the embedding step. -/
def pureEmbed (feather : Graph → List Int) (target : Nat) (g : Graph) :
    Except String (Option (List Int)) :=
  .ok (vectorizeGraph feather target g)

/-! ### Spec-side characterization of the parsed block keys (for C1)

`bodyLines` follows the spec's wording: the body is the run of lines after
the first line containing an opening brace, up to (excluding) the first
line that is exactly a closing brace; `specBlockLabels` is the list of
`bbN:` labels of those lines, first occurrences in textual order. -/

def bodyLines (lines : List Str) : List Str :=
  ((lines.dropWhile (fun l => !hasSub (trim l) [braceO])).drop 1).takeWhile
    (fun l => trim l ≠ [braceC])

def specBlockLabels (lines : List Str) : List Str :=
  firstDedup ((bodyLines lines).filterMap (fun l => blockLabel (trim l)))

/-- Python `firstDedup` continued from an accumulator. -/
def dedupAppend (acc : List Str) (xs : List Str) : List Str :=
  xs.foldl (fun a l => if l ∈ a then a else a ++ [l]) acc

theorem firstDedup_eq_dedupAppend (xs : List Str) : firstDedup xs = dedupAppend [] xs := rfl

theorem strPrefix_let_not_bb (t : Str) (h : strPrefix ['l', 'e', 't'] t = true) :
    strPrefix ['b', 'b'] t = false := by
  cases t with
  | nil => simp [strPrefix] at h
  | cons c u =>
    simp only [strPrefix, Bool.and_eq_true, beq_iff_eq] at h
    simp [strPrefix, ← h.1]

/-- A line recognized as a declaration is never a block header (the
declaration check fires first in `_parse_function_block`, but cannot
shadow a block line). -/
theorem blockLabel_eq_none_of_decl (s : Str) (h : (declParse s).isSome) :
    blockLabel s = none := by
  unfold declParse at h
  unfold blockLabel
  by_cases hp : strPrefix ['l', 'e', 't'] (dropWS s) = true
  · simp [strPrefix_let_not_bb _ hp]
  · simp [hp] at h

theorem map_fst_dinsert (k : Str) (v : BBlock) (m : List (Str × BBlock)) :
    (dinsert k v m).map Prod.fst =
      if k ∈ m.map Prod.fst then m.map Prod.fst else m.map Prod.fst ++ [k] := by
  induction m with
  | nil => simp [dinsert]
  | cons p t ih =>
    obtain ⟨a, b⟩ := p
    by_cases h : a = k
    · subst h
      have hd : dinsert a v ((a, b) :: t) = (a, v) :: t := by
        simp [dinsert]
      rw [hd, List.map_cons, List.map_cons, if_pos (List.mem_cons_self _ _)]
    · simp only [dinsert, if_neg h, List.map_cons, ih]
      by_cases hm : k ∈ t.map Prod.fst
      · rw [if_pos hm, if_pos (List.mem_cons_of_mem _ hm)]
      · have hnc : k ∉ a :: t.map Prod.fst := by
          intro hc
          rcases List.mem_cons.mp hc with h1 | h2
          · exact h h1.symm
          · exact hm h2
        rw [if_neg hm, if_neg hnc, List.cons_append]

theorem map_fst_dupdate (k : Str) (f : BBlock → BBlock) (m : List (Str × BBlock)) :
    (dupdate k f m).map Prod.fst = m.map Prod.fst := by
  induction m with
  | nil => simp [dupdate]
  | cons p t ih =>
    obtain ⟨a, b⟩ := p
    by_cases h : a = k <;> simp [dupdate, h, ih]

/-! Step equations for the body loop, one per branch of
`_parse_function_block`. -/

theorem fnBody_nil (b : Bool) (st : PFState) : fnBody [] b st = st := rfl

theorem fnBody_step_brace (l : Str) (rest : List Str) (st : PFState)
    (h : trim l = [braceC]) : fnBody (l :: rest) true st = st := by
  simp [fnBody, h]

theorem fnBody_step_decl (l : Str) (rest : List Str) (st : PFState) (lv ty : Str)
    (hbr : trim l ≠ [braceC]) (hd : declParse (trim l) = some (lv, ty)) :
    fnBody (l :: rest) true st =
      fnBody rest true { st with decls := st.decls ++ [⟨lv, ty, trim l⟩] } := by
  simp [fnBody, hbr, hd]

theorem fnBody_step_block (l : Str) (rest : List Str) (st : PFState) (lbl : Str)
    (hbr : trim l ≠ [braceC]) (hd : declParse (trim l) = none)
    (hb : blockLabel (trim l) = some lbl) :
    fnBody (l :: rest) true st =
      fnBody rest true
        { st with blocks := dinsert lbl ⟨[], none⟩ st.blocks, curBlock := some lbl } := by
  simp [fnBody, hbr, hd, hb]

theorem fnBody_step_nocur (l : Str) (rest : List Str) (st : PFState)
    (hbr : trim l ≠ [braceC]) (hd : declParse (trim l) = none)
    (hb : blockLabel (trim l) = none) (hc : st.curBlock = none) :
    fnBody (l :: rest) true st = fnBody rest true st := by
  simp [fnBody, hbr, hd, hb, hc]

theorem fnBody_step_skip (l : Str) (rest : List Str) (st : PFState) (cb : Str)
    (hbr : trim l ≠ [braceC]) (hd : declParse (trim l) = none)
    (hb : blockLabel (trim l) = none) (hc : st.curBlock = some cb)
    (hs : ((trim l).isEmpty || strPrefix ['/', '/'] (trim l)) = true) :
    fnBody (l :: rest) true st = fnBody rest true st := by
  simp [fnBody, hbr, hd, hb, hc, hs]

theorem fnBody_step_term (l : Str) (rest : List Str) (st : PFState) (cb : Str)
    (hbr : trim l ≠ [braceC]) (hd : declParse (trim l) = none)
    (hb : blockLabel (trim l) = none) (hc : st.curBlock = some cb)
    (hs : ((trim l).isEmpty || strPrefix ['/', '/'] (trim l)) = false)
    (ht : isTermLine (trim l) = true) :
    fnBody (l :: rest) true st =
      fnBody rest true
        { st with blocks := dupdate cb (fun b => { b with terminator := some (trim l) }) st.blocks } := by
  simp [fnBody, hbr, hd, hb, hc, hs, ht]

theorem fnBody_step_stmt (l : Str) (rest : List Str) (st : PFState) (cb : Str)
    (hbr : trim l ≠ [braceC]) (hd : declParse (trim l) = none)
    (hb : blockLabel (trim l) = none) (hc : st.curBlock = some cb)
    (hs : ((trim l).isEmpty || strPrefix ['/', '/'] (trim l)) = false)
    (ht : isTermLine (trim l) = false) :
    fnBody (l :: rest) true st =
      fnBody rest true
        { st with blocks :=
            dupdate cb (fun b => { b with statements := b.statements ++ [trim l] }) st.blocks } := by
  simp [fnBody, hbr, hd, hb, hc, hs, ht]

theorem fnBody_step_pre_brace (l : Str) (rest : List Str) (st : PFState)
    (h : hasSub (trim l) [braceO] = true) :
    fnBody (l :: rest) false st = fnBody rest true st := by
  simp [fnBody, h]

theorem fnBody_step_pre_skip (l : Str) (rest : List Str) (st : PFState)
    (h : hasSub (trim l) [braceO] = false) :
    fnBody (l :: rest) false st = fnBody rest false st := by
  simp [fnBody, h]

/-- Labels contributed by a list of in-body lines (up to the `break`). -/
def labelsIn (lines : List Str) : List Str :=
  (lines.takeWhile (fun l => trim l ≠ [braceC])).filterMap (fun l => blockLabel (trim l))

theorem labelsIn_cons_brace (l : Str) (rest : List Str) (h : trim l = [braceC]) :
    labelsIn (l :: rest) = [] := by
  simp [labelsIn, List.takeWhile_cons, h]

theorem labelsIn_cons_some (l : Str) (rest : List Str) (lbl : Str)
    (hbr : trim l ≠ [braceC]) (hb : blockLabel (trim l) = some lbl) :
    labelsIn (l :: rest) = lbl :: labelsIn rest := by
  simp [labelsIn, List.takeWhile_cons, hbr, List.filterMap_cons, hb]

theorem labelsIn_cons_none (l : Str) (rest : List Str)
    (hbr : trim l ≠ [braceC]) (hb : blockLabel (trim l) = none) :
    labelsIn (l :: rest) = labelsIn rest := by
  simp [labelsIn, List.takeWhile_cons, hbr, List.filterMap_cons, hb]

theorem fnBody_true_keys (lines : List Str) :
    ∀ st : PFState,
      ((fnBody lines true st).blocks).map Prod.fst =
        dedupAppend (st.blocks.map Prod.fst) (labelsIn lines) := by
  induction lines with
  | nil => intro st; rfl
  | cons l rest ih =>
    intro st
    by_cases hbr : trim l = [braceC]
    · rw [fnBody_step_brace _ _ _ hbr, labelsIn_cons_brace _ _ hbr]
      rfl
    · match hdp : declParse (trim l) with
      | some (lv, ty) =>
        have hbl : blockLabel (trim l) = none :=
          blockLabel_eq_none_of_decl _ (by simp [hdp])
        rw [fnBody_step_decl _ _ _ _ _ hbr hdp, labelsIn_cons_none _ _ hbr hbl, ih]
      | none =>
        match hbl : blockLabel (trim l) with
        | some lbl =>
          rw [fnBody_step_block _ _ _ _ hbr hdp hbl, labelsIn_cons_some _ _ _ hbr hbl, ih]
          simp only [map_fst_dinsert]
          rfl
        | none =>
          rw [labelsIn_cons_none _ _ hbr hbl]
          match hcb : st.curBlock with
          | none => rw [fnBody_step_nocur _ _ _ hbr hdp hbl hcb, ih]
          | some cb =>
            match hsk : ((trim l).isEmpty || strPrefix ['/', '/'] (trim l)) with
            | true => rw [fnBody_step_skip _ _ _ _ hbr hdp hbl hcb hsk, ih]
            | false =>
              match ht : isTermLine (trim l) with
              | true =>
                rw [fnBody_step_term _ _ _ _ hbr hdp hbl hcb hsk ht, ih]
                simp [map_fst_dupdate]
              | false =>
                rw [fnBody_step_stmt _ _ _ _ hbr hdp hbl hcb hsk ht, ih]
                simp [map_fst_dupdate]

theorem fnBody_false (lines : List Str) :
    ∀ st : PFState,
      fnBody lines false st =
        fnBody ((lines.dropWhile (fun l => !hasSub (trim l) [braceO])).drop 1) true st := by
  induction lines with
  | nil => intro st; rfl
  | cons l rest ih =>
    intro st
    match h : hasSub (trim l) [braceO] with
    | true =>
      rw [fnBody_step_pre_brace _ _ _ h]
      simp [List.dropWhile_cons, h]
    | false =>
      rw [fnBody_step_pre_skip _ _ _ h, ih]
      simp [List.dropWhile_cons, h]

/-- Claim C1: for valid MIR function text with at least one block,
`MIRParser.parse` yields a record whose basic-block mapping keys are
exactly the `bbN:` labels of the function's body text, deduplicated in
textual order of first occurrence. -/
theorem c1_parse_block_keys (lines : List Str) (name l0 : Str)
    (h0 : lines.head? = some l0) (hf : funcStart l0 = some name)
    (hblk : specBlockLabels lines ≠ []) :
    ∃ r : FuncRec, parseFunctionBlock lines = some (name, r) ∧
      r.basicBlocks.map Prod.fst = specBlockLabels lines := by
  cases lines with
  | nil => simp at h0
  | cons a rest =>
    have ha : a = l0 := by simpa using h0
    subst ha
    simp only [parseFunctionBlock, hf]
    refine ⟨_, rfl, ?_⟩
    rw [fnBody_false, fnBody_true_keys]
    simp only [specBlockLabels, bodyLines, labelsIn, firstDedup_eq_dedupAppend]
    rfl

/-- Witness for C1 at a concrete two-block function text. -/
theorem c1_parse_block_keys_witness :
    (∃ r : FuncRec,
        parseFunctionBlock
            (["fn foo() \x7b", "  bb0: \x7b", "    goto -> bb1;", "  bb1: \x7b",
              "    return;", "\x7d"].map String.toList) =
          some ("foo".toList, r) ∧
        r.basicBlocks.map Prod.fst =
          specBlockLabels
            (["fn foo() \x7b", "  bb0: \x7b", "    goto -> bb1;", "  bb1: \x7b",
              "    return;", "\x7d"].map String.toList)) ∧
      specBlockLabels
          (["fn foo() \x7b", "  bb0: \x7b", "    goto -> bb1;", "  bb1: \x7b",
            "    return;", "\x7d"].map String.toList) =
        ["bb0".toList, "bb1".toList] :=
  ⟨c1_parse_block_keys _ _ _ (by rfl) (by decide) (by decide), by decide⟩

/-! ### Terminator classification inside a block (C7) -/

/-- First-`some` choice on options. -/
def oor : Option Str → Option Str → Option Str
  | some x, _ => some x
  | none, y => y

theorem oor_some (x : Str) (o : Option Str) : oor (some x) o = some x := rfl

theorem oor_none (o : Option Str) : oor none o = o := rfl

theorem oor_assoc (a b c : Option Str) : oor (oor a b) c = oor a (oor b c) := by
  cases a <;> cases b <;> rfl

/-- The last terminator-marked line of a run of in-block lines. -/
def lastTermIn (lines : List Str) : Option Str :=
  ((lines.map trim).filter isTermLine).getLast?

theorem getLast?_eq_oor (x : Str) (xs : List Str) :
    (x :: xs).getLast? = oor xs.getLast? (some x) := by
  induction xs generalizing x with
  | nil => rfl
  | cons y ys ih =>
    rw [List.getLast?_cons_cons, ih y]
    cases ys.getLast? <;> rfl

theorem lastTermIn_cons_term (l : Str) (rest : List Str) (ht : isTermLine (trim l) = true) :
    lastTermIn (l :: rest) = oor (lastTermIn rest) (some (trim l)) := by
  simp only [lastTermIn, List.map_cons, List.filter_cons, ht, if_pos]
  exact getLast?_eq_oor _ _

theorem lastTermIn_cons_stmt (l : Str) (rest : List Str) (ht : isTermLine (trim l) = false) :
    lastTermIn (l :: rest) = lastTermIn rest := by
  simp [lastTermIn, List.filter_cons, ht]

theorem bbFind_dupdate (k : Str) (f : BBlock → BBlock) (m : List (Str × BBlock)) :
    bbFind k (dupdate k f m) = (bbFind k m).map f := by
  induction m with
  | nil => rfl
  | cons p t ih =>
    obtain ⟨a, b⟩ := p
    by_cases h : a = k
    · subst h
      simp [dupdate, bbFind]
    · simp [dupdate, bbFind, h, ih]

/-- Over a run of plain in-block lines (no brace, declaration, block header,
blank or comment among them), the block's final terminator is the last
terminator-marked line, and the original one if there is none. -/
theorem fnBody_lastTerm (lines : List Str) :
    ∀ st : PFState, ∀ cb : Str, ∀ bb : BBlock,
      (∀ l ∈ lines,
          trim l ≠ [braceC] ∧ declParse (trim l) = none ∧ blockLabel (trim l) = none ∧
          (trim l).isEmpty = false ∧ strPrefix ['/', '/'] (trim l) = false) →
      st.curBlock = some cb → bbFind cb st.blocks = some bb →
      ∃ bb' : BBlock, bbFind cb (fnBody lines true st).blocks = some bb' ∧
        bb'.terminator = oor (lastTermIn lines) bb.terminator := by
  induction lines with
  | nil =>
    intro st cb bb _ _ hfind
    exact ⟨bb, by simpa [fnBody_nil] using hfind, by simp [lastTermIn, oor_none]⟩
  | cons l rest ih =>
    intro st cb bb hall hcur hfind
    obtain ⟨hbr, hd, hb, hne, hnc⟩ := hall l (List.mem_cons_self _ _)
    have hrest : ∀ l' ∈ rest, _ := fun l' hl' => hall l' (List.mem_cons_of_mem _ hl')
    match ht : isTermLine (trim l) with
    | true =>
      rw [fnBody_step_term _ _ _ _ hbr hd hb hcur (by simp [hne, hnc]) ht]
      obtain ⟨bb', hfind', hterm'⟩ :=
        ih { st with blocks :=
              dupdate cb (fun b => { b with terminator := some (trim l) }) st.blocks }
          cb { bb with terminator := some (trim l) } hrest (by simpa using hcur)
          (by rw [bbFind_dupdate, hfind]; rfl)
      refine ⟨bb', hfind', ?_⟩
      rw [hterm', lastTermIn_cons_term _ _ ht, oor_assoc]
      rfl
    | false =>
      rw [fnBody_step_stmt _ _ _ _ hbr hd hb hcur (by simp [hne, hnc]) ht]
      obtain ⟨bb', hfind', hterm'⟩ :=
        ih { st with blocks :=
              dupdate cb (fun b => { b with statements := b.statements ++ [trim l] }) st.blocks }
          cb { bb with statements := bb.statements ++ [trim l] } hrest (by simpa using hcur)
          (by rw [bbFind_dupdate, hfind]; rfl)
      refine ⟨bb', hfind', ?_⟩
      rw [hterm', lastTermIn_cons_stmt _ _ ht]

/-- Claim C7: a non-empty non-comment in-block line is the terminator
exactly when it contains one of the five literal markers, otherwise it is
a statement; later terminator lines overwrite earlier ones so the last one
is kept; a block whose only content is `return;` yields exactly one node,
of type terminator, and no statement nodes. -/
theorem c7_terminator_classification :
    (∀ (l : Str),
        isTermLine (trim l) =
          (hasSub (trim l) "->".toList || hasSub (trim l) "return;".toList ||
            hasSub (trim l) "unreachable;".toList || hasSub (trim l) "resume;".toList ||
            hasSub (trim l) "abort;".toList)) ∧
    (∀ (l : Str) (rest : List Str) (st : PFState) (cb : Str),
        trim l ≠ [braceC] → declParse (trim l) = none → blockLabel (trim l) = none →
        st.curBlock = some cb → (trim l).isEmpty = false →
        strPrefix ['/', '/'] (trim l) = false →
        (isTermLine (trim l) = true →
          fnBody (l :: rest) true st =
            fnBody rest true
              { st with blocks :=
                  dupdate cb (fun b => { b with terminator := some (trim l) }) st.blocks }) ∧
        (isTermLine (trim l) = false →
          fnBody (l :: rest) true st =
            fnBody rest true
              { st with blocks :=
                  dupdate cb (fun b => { b with statements := b.statements ++ [trim l] }) st.blocks })) ∧
    (∀ (lines : List Str) (st : PFState) (cb : Str) (bb : BBlock),
        (∀ l ∈ lines,
            trim l ≠ [braceC] ∧ declParse (trim l) = none ∧ blockLabel (trim l) = none ∧
            (trim l).isEmpty = false ∧ strPrefix ['/', '/'] (trim l) = false) →
        st.curBlock = some cb → bbFind cb st.blocks = some bb →
        ∃ bb' : BBlock, bbFind cb (fnBody lines true st).blocks = some bb' ∧
          bb'.terminator = oor (lastTermIn lines) bb.terminator) ∧
    (parseMIR (["fn h() \x7b", "bb0: \x7b", "return;", "\x7d"].map String.toList) =
        [("h".toList, ⟨[], [("bb0".toList, ⟨[], some "return;".toList⟩)]⟩)] ∧
      (buildGraph ⟨[], [("bb0".toList, ⟨[], some "return;".toList⟩)]⟩).nodes =
        [⟨NType.term, "return;".toList, "bb0".toList⟩]) := by
  refine ⟨fun l => rfl, ?_, fnBody_lastTerm, by decide, by decide⟩
  intro l rest st cb hbr hd hb hcur hne hnc
  exact ⟨fun ht => fnBody_step_term _ _ _ _ hbr hd hb hcur (by simp [hne, hnc]) ht,
    fun ht => fnBody_step_stmt _ _ _ _ hbr hd hb hcur (by simp [hne, hnc]) ht⟩

/-- Witness for C7: the terminator-classification branch applied to a
concrete `goto` line inside a concrete block. -/
theorem c7_terminator_classification_witness :
    fnBody ["goto -> bb1;".toList] true
        ⟨[], [("bb0".toList, ⟨[], none⟩)], some "bb0".toList⟩ =
      fnBody [] true
        ⟨[],
          dupdate "bb0".toList
            (fun b => { b with terminator := some (trim "goto -> bb1;".toList) })
            [("bb0".toList, ⟨[], none⟩)],
          some "bb0".toList⟩ :=
  (c7_terminator_classification.2.1 "goto -> bb1;".toList []
      ⟨[], [("bb0".toList, ⟨[], none⟩)], some "bb0".toList⟩ "bb0".toList
      (by decide) (by decide) (by decide) rfl (by decide) (by decide)).1 (by decide)

/-! ### Batch parsing of several functions (C9) -/

/-- The record `_parse_function_block` stores for one function's lines. -/
def recOf (lines : List Str) : FuncRec :=
  ⟨(fnBody lines false ⟨[], [], none⟩).decls, (fnBody lines false ⟨[], [], none⟩).blocks⟩

theorem parseFunctionBlock_eq (l0 : Str) (rest : List Str) (name : Str)
    (hf : funcStart l0 = some name) :
    parseFunctionBlock (l0 :: rest) = some (name, recOf (l0 :: rest)) := by
  simp [parseFunctionBlock, hf, recOf]

/-- Lines that start no function are appended to the current function's
line list. -/
theorem parseLoop_skip (ls : List Str) :
    ∀ (rest cur : List Str) (fns : List (Str × FuncRec)),
      (∀ l ∈ ls, funcStart l = none) →
      parseLoop (ls ++ rest) cur true fns = parseLoop rest (cur ++ ls) true fns := by
  induction ls with
  | nil => intro rest cur fns _; simp
  | cons l ls ih =>
    intro rest cur fns hall
    have h0 : funcStart l = none := hall l (List.mem_cons_self _ _)
    have hstep : parseLoop (l :: (ls ++ rest)) cur true fns =
        parseLoop (ls ++ rest) (cur ++ [l]) true fns := by
      simp [parseLoop, h0]
    rw [List.cons_append, hstep, ih rest (cur ++ [l]) fns
      (fun l' hl' => hall l' (List.mem_cons_of_mem _ hl'))]
    simp

/-- Claim C9: parsing a two-function text yields exactly the two records
that parsing each function's lines alone yields, and building each graph
in the batch gives exactly the graph built from that record alone (no
cross-function leakage: each `CPGBuilder` is fresh). -/
theorem c9_two_function_independence (a0 b0 : Str) (arest brest : List Str) (na nb : Str)
    (hfa : funcStart a0 = some na) (hna : ∀ l ∈ arest, funcStart l = none)
    (hfb : funcStart b0 = some nb) (hnb : ∀ l ∈ brest, funcStart l = none)
    (hne : na ≠ nb) :
    parseFunctionBlock (a0 :: arest) = some (na, recOf (a0 :: arest)) ∧
    parseFunctionBlock (b0 :: brest) = some (nb, recOf (b0 :: brest)) ∧
    parseMIR ((a0 :: arest) ++ (b0 :: brest)) =
      [(na, recOf (a0 :: arest)), (nb, recOf (b0 :: brest))] ∧
    (parseMIR ((a0 :: arest) ++ (b0 :: brest))).map (fun p => buildGraph p.2) =
      [buildGraph (recOf (a0 :: arest)), buildGraph (recOf (b0 :: brest))] := by
  have hpa := parseFunctionBlock_eq a0 arest na hfa
  have hpb := parseFunctionBlock_eq b0 brest nb hfb
  have hmir : parseMIR ((a0 :: arest) ++ (b0 :: brest)) =
      [(na, recOf (a0 :: arest)), (nb, recOf (b0 :: brest))] := by
    have h1 : parseMIR ((a0 :: arest) ++ (b0 :: brest)) =
        parseLoop (arest ++ (b0 :: brest)) [a0] true [] := by
      simp [parseMIR, parseLoop, hfa]
    have h2 := parseLoop_skip arest (b0 :: brest) [a0] [] hna
    have h3 : parseLoop (b0 :: brest) ([a0] ++ arest) true [] =
        parseLoop brest [b0] true [(na, recOf (a0 :: arest))] := by
      simp [parseLoop, hfb, commitFn, hpa, finsert]
    have h4 := parseLoop_skip brest [] [b0] [(na, recOf (a0 :: arest))] hnb
    have h5 : parseLoop [] ([b0] ++ brest) true [(na, recOf (a0 :: arest))] =
        [(na, recOf (a0 :: arest)), (nb, recOf (b0 :: brest))] := by
      simp [parseLoop, commitFn, hpb, finsert, hne]
    rw [h1, h2, h3]
    rw [List.append_nil] at h4
    rw [h4, h5]
  exact ⟨hpa, hpb, hmir, by rw [hmir]; rfl⟩

/-- Witness for C9 at a concrete two-function text. -/
theorem c9_two_function_independence_witness :
    parseMIR
        ((["fn a() \x7b", "bb0: \x7b", "_1 = 1;", "return;"].map String.toList) ++
          (["fn b() \x7b", "bb0: \x7b", "_9 = 3;", "unreachable;", "\x7d"].map String.toList)) =
      [("a".toList, recOf (["fn a() \x7b", "bb0: \x7b", "_1 = 1;", "return;"].map String.toList)),
        ("b".toList,
          recOf (["fn b() \x7b", "bb0: \x7b", "_9 = 3;", "unreachable;", "\x7d"].map String.toList))] :=
  (c9_two_function_independence _ _ _ _ _ _ (by decide) (by decide) (by decide) (by decide)
    (by decide)).2.2.1

/-! ### Embedding dimension and the empty-graph skip (C6, C8, C2) -/

theorem normalizeEmb_length (target : Nat) (emb : List Int) :
    (normalizeEmb target emb).length = target := by
  unfold normalizeEmb
  by_cases h : emb.length = target
  · simp [h]
  · by_cases hl : emb.length > target
    · simp [h, hl]
      omega
    · simp [h, hl]
      omega

/-- Claim C6: for a graph with at least one node the returned embedding
has length exactly the configured dimension; a longer natural output is
truncated to the first `target` components and a shorter one is
right-padded with zeros. -/
theorem c6_embedding_dimension (feather : Graph → List Int) (target : Nat) (g : Graph)
    (h : g.numNodes ≠ 0) :
    vectorizeGraph feather target g = some (normalizeEmb target (feather g)) ∧
    (normalizeEmb target (feather g)).length = target ∧
    ((feather g).length > target →
      normalizeEmb target (feather g) = (feather g).take target) ∧
    ((feather g).length < target →
      normalizeEmb target (feather g) =
        feather g ++ List.replicate (target - (feather g).length) 0) := by
  refine ⟨by simp [vectorizeGraph, h], normalizeEmb_length _ _, ?_, ?_⟩
  · intro hgt
    simp [normalizeEmb, Nat.ne_of_gt hgt, hgt]
  · intro hlt
    simp [normalizeEmb, Nat.ne_of_lt hlt, not_lt.mpr (le_of_lt hlt)]

/-- Witness for C6 on a one-node graph, with a longer and a shorter
natural output. -/
theorem c6_embedding_dimension_witness :
    (Graph.mk [⟨NType.term, "return;".toList, "bb0".toList⟩] []).numNodes ≠ 0 ∧
    vectorizeGraph (fun _ => [5, 6, 7]) 2
        (Graph.mk [⟨NType.term, "return;".toList, "bb0".toList⟩] []) =
      some (normalizeEmb 2 [5, 6, 7]) ∧
    normalizeEmb 2 [5, 6, 7] = [5, 6] ∧
    normalizeEmb 5 [5, 6, 7] = [5, 6, 7, 0, 0] :=
  ⟨by decide,
    (c6_embedding_dimension (fun _ => [5, 6, 7]) 2
        (Graph.mk [⟨NType.term, "return;".toList, "bb0".toList⟩] []) (by decide)).1,
    by decide, by decide⟩

/-- The orchestration loop with the non-raising embedder: every function
is visited; zero-node functions are recorded as skip notices, all others
are stored. -/
theorem processFunctions_pure (feather : Graph → List Int) (target : Nat)
    (fns : List (Str × FuncRec)) :
    ∀ acc : List Stored × List Str,
      processFunctions (pureEmbed feather target) fns acc =
        .ok
          (acc.1 ++
            (fns.filter (fun p => ¬(buildGraph p.2).numNodes = 0)).map
              (fun p =>
                ⟨p.1, (buildGraph p.2).numNodes, (buildGraph p.2).numEdges,
                  normalizeEmb target (feather (buildGraph p.2))⟩),
          acc.2 ++ (fns.filter (fun p => (buildGraph p.2).numNodes = 0)).map Prod.fst) := by
  induction fns with
  | nil => intro acc; simp [processFunctions]
  | cons p t ih =>
    intro acc
    obtain ⟨fn, fr⟩ := p
    by_cases h : (buildGraph fr).numNodes = 0
    · have hstep : processFunctions (pureEmbed feather target) ((fn, fr) :: t) acc =
          processFunctions (pureEmbed feather target) t (acc.1, acc.2 ++ [fn]) := by
        simp [processFunctions, pureEmbed, vectorizeGraph, h]
      rw [hstep, ih]
      simp [List.filter_cons, h, List.append_assoc]
    · have hstep : processFunctions (pureEmbed feather target) ((fn, fr) :: t) acc =
          processFunctions (pureEmbed feather target) t
            (acc.1 ++
              [⟨fn, (buildGraph fr).numNodes, (buildGraph fr).numEdges,
                normalizeEmb target (feather (buildGraph fr))⟩],
            acc.2) := by
        simp [processFunctions, pureEmbed, vectorizeGraph, h]
      rw [hstep, ih]
      simp [List.filter_cons, h, List.append_assoc]

/-- Claim C8: the embedder returns no embedding iff the graph has zero
nodes, and the orchestrator records a skip notice for exactly those
functions, stores all the others, and never aborts the batch. -/
theorem c8_empty_embedding_skip :
    (∀ (feather : Graph → List Int) (target : Nat) (g : Graph),
        vectorizeGraph feather target g = none ↔ g.numNodes = 0) ∧
    (∀ (feather : Graph → List Int) (target : Nat) (fns : List (Str × FuncRec)),
        processFunctions (pureEmbed feather target) fns ([], []) =
          .ok
            ((fns.filter (fun p => ¬(buildGraph p.2).numNodes = 0)).map
                (fun p =>
                  ⟨p.1, (buildGraph p.2).numNodes, (buildGraph p.2).numEdges,
                    normalizeEmb target (feather (buildGraph p.2))⟩),
            (fns.filter (fun p => (buildGraph p.2).numNodes = 0)).map Prod.fst)) := by
  constructor
  · intro feather target g
    by_cases h : g.numNodes = 0 <;> simp [vectorizeGraph, h]
  · intro feather target fns
    simpa using processFunctions_pure feather target fns ([], [])

/-- Claim C2 (evidence of the missing handler): `process_functions` has no
per-function exception handler, so an embedding exception on the first
function aborts the whole batch and the second function is never
processed or stored. -/
theorem c2_batch_aborts_on_exception :
    processFunctions (fun _ => .error "FeatherGraph failure")
        [("a".toList, ⟨[], [("bb0".toList, ⟨["_1 = 1;".toList], some "return;".toList⟩)]⟩),
          ("b".toList, ⟨[], [("bb0".toList, ⟨[], some "return;".toList⟩)]⟩)]
        ([], []) = .error "FeatherGraph failure" := by
  rfl

/-! ### DFG construction: last writer wins (C3) -/

theorem addUseEdges_edges (defs : Defs) (nodeId : Nat) (us : List Str) :
    ∀ g : Graph,
      (addUseEdges defs nodeId us g).edges =
        g.edges ++
          us.filterMap (fun v => (defsFind defs v).map (fun d => Edge.mk d nodeId .dfg)) := by
  induction us with
  | nil => intro g; simp [addUseEdges]
  | cons v t ih =>
    intro g
    match hv : defsFind defs v with
    | some d =>
      have hstep : addUseEdges defs nodeId (v :: t) g =
          addUseEdges defs nodeId t (g.addEdge d nodeId .dfg) := by
        simp [addUseEdges, hv]
      rw [hstep, ih]
      simp [Graph.addEdge, List.filterMap_cons, hv]
    | none =>
      have hstep : addUseEdges defs nodeId (v :: t) g = addUseEdges defs nodeId t g := by
        simp [addUseEdges, hv]
      rw [hstep, ih]
      simp [List.filterMap_cons, hv]

theorem defsFind_defsInsert_self (k : Str) (v : Nat) (defs : Defs) :
    defsFind (defsInsert k v defs) k = some v := by
  induction defs with
  | nil => simp [defsInsert, defsFind]
  | cons p t ih =>
    obtain ⟨a, w⟩ := p
    by_cases h : a = k
    · simp [defsInsert, h, defsFind]
    · simp [defsInsert, h, defsFind, ih]

theorem defsFind_defsInsert_other (k w : Str) (v : Nat) (defs : Defs) (h : w ≠ k) :
    defsFind (defsInsert k v defs) w = defsFind defs w := by
  induction defs with
  | nil => simp [defsInsert, defsFind, Ne.symm h]
  | cons p t ih =>
    obtain ⟨a, x⟩ := p
    by_cases ha : a = k
    · subst ha
      simp [defsInsert, defsFind, Ne.symm h]
    · simp [defsInsert, ha, defsFind, ih]

/-- Claim C3: for an assignment node, exactly one DFG edge per used
variable with a prior definition is added, from its most recent defining
node; then the assignment's base identifier is redefined to the current
node, leaving all other definitions untouched. Concretely, with
`_1 = 1;`, `_1 = 2;`, `_3 = _1;` the only DFG edge into the `_3 = _1;`
node comes from `_1 = 2;`. -/
theorem c3_dfg_last_writer_wins :
    (∀ (raw target rhs base : Str) (nodeId : Nat) (g : Graph) (defs : Defs),
        assignMatch raw = some (target, rhs) → localBase target = some base →
        (processDfg raw nodeId g defs).1.edges =
            g.edges ++
              (firstDedup (localsOf rhs)).filterMap
                (fun v => (defsFind defs v).map (fun d => Edge.mk d nodeId .dfg)) ∧
          defsFind (processDfg raw nodeId g defs).2 base = some nodeId ∧
          (∀ w, w ≠ base →
            defsFind (processDfg raw nodeId g defs).2 w = defsFind defs w)) ∧
    ((buildGraph
          ⟨[], [("bb0".toList,
              ⟨["_1 = 1;".toList, "_1 = 2;".toList, "_3 = _1;".toList], none⟩)]⟩).nodes =
        [⟨NType.stmt, "_1 = 1;".toList, "bb0".toList⟩,
          ⟨NType.stmt, "_1 = 2;".toList, "bb0".toList⟩,
          ⟨NType.stmt, "_3 = _1;".toList, "bb0".toList⟩] ∧
      (buildGraph
          ⟨[], [("bb0".toList,
              ⟨["_1 = 1;".toList, "_1 = 2;".toList, "_3 = _1;".toList], none⟩)]⟩).edges.filter
          (fun e => decide (e.dst = 2 ∧ e.data = EData.dfg)) =
        [⟨1, 2, EData.dfg⟩]) := by
  refine ⟨?_, by decide, by decide⟩
  intro raw target rhs base nodeId g defs hm hb
  have hp : processDfg raw nodeId g defs =
      (addUseEdges defs nodeId (firstDedup (localsOf rhs)) g,
        defsInsert base nodeId defs) := by
    simp [processDfg, hm, hb]
  rw [hp]
  exact ⟨addUseEdges_edges defs nodeId _ g, defsFind_defsInsert_self _ _ _,
    fun w hw => defsFind_defsInsert_other _ _ _ _ hw⟩

/-- Witness for C3: one DFG edge from the definition of `_1` into
`_2 = _1;`, and the redefinition of `_2`. -/
theorem c3_dfg_last_writer_wins_witness :
    (processDfg "_2 = _1;".toList 7 (Graph.mk [] []) [("_1".toList, 4)]).1.edges =
        [] ++
          (firstDedup (localsOf "_1".toList)).filterMap
            (fun v => (defsFind [("_1".toList, 4)] v).map (fun d => Edge.mk d 7 .dfg)) ∧
      defsFind (processDfg "_2 = _1;".toList 7 (Graph.mk [] []) [("_1".toList, 4)]).2
          "_2".toList = some 7 ∧
      (∀ w, w ≠ "_2".toList →
        defsFind (processDfg "_2 = _1;".toList 7 (Graph.mk [] []) [("_1".toList, 4)]).2 w =
          defsFind [("_1".toList, 4)] w) :=
  c3_dfg_last_writer_wins.1 "_2 = _1;".toList "_2".toList "_1".toList "_2".toList 7
    (Graph.mk [] []) [("_1".toList, 4)] (by decide) (by decide)

/-! ### Explicit shape of `_create_nodes` (used for C4 and C10) -/

/-- Node-map entries for a run of statements: keys `(b, idx i)` from `i`,
values (handles) from `v`, one per statement. -/
def stmtEntriesFrom (b : Str) : Nat → Nat → Nat → NodeMap
  | _, _, 0 => []
  | i, v, n + 1 => ((b, .idx i), v) :: stmtEntriesFrom b (i + 1) (v + 1) n

/-- Number of nodes a block contributes. -/
def blockSize (bb : BBlock) : Nat :=
  bb.statements.length + (match bb.terminator with | some _ => 1 | none => 0)

/-- The nodes a block contributes, in creation order. -/
def blockNodes (b : Str) (bb : BBlock) : List Node :=
  bb.statements.map (fun s => ⟨.stmt, s, b⟩) ++
    (match bb.terminator with | some t => [⟨.term, t, b⟩] | none => [])

def blocksSize (blocks : List (Str × BBlock)) : Nat :=
  (blocks.map (fun p => blockSize p.2)).sum

/-- The node-map entries `_create_nodes` produces, with handles starting
at `s`. -/
def entriesOf (s : Nat) : List (Str × BBlock) → NodeMap
  | [] => []
  | (b, bb) :: rest =>
    (stmtEntriesFrom b 0 s bb.statements.length ++
        (match bb.terminator with
         | some _ => [((b, .term), s + bb.statements.length)]
         | none => [])) ++
      entriesOf (s + blockSize bb) rest

theorem addStmts_spec (b : Str) (stmts : List Str) :
    ∀ (i : Nat) (g : Graph) (nm : NodeMap),
      addStmts b stmts i g nm =
        ({ g with nodes := g.nodes ++ stmts.map (fun s => ⟨NType.stmt, s, b⟩) },
          nm ++ stmtEntriesFrom b i g.nodes.length stmts.length) := by
  induction stmts with
  | nil => intro i g nm; simp [addStmts, stmtEntriesFrom]
  | cons s rest ih =>
    intro i g nm
    have hstep : addStmts b (s :: rest) i g nm =
        addStmts b rest (i + 1) { g with nodes := g.nodes ++ [⟨NType.stmt, s, b⟩] }
          (nm ++ [((b, .idx i), g.nodes.length)]) := by
      simp [addStmts, Graph.addNode]
    rw [hstep, ih]
    simp [stmtEntriesFrom]

theorem createNodes_spec (blocks : List (Str × BBlock)) :
    ∀ (g : Graph) (nm : NodeMap),
      createNodes blocks g nm =
        ({ g with nodes := g.nodes ++ blocks.flatMap (fun p => blockNodes p.1 p.2) },
          nm ++ entriesOf g.nodes.length blocks) := by
  induction blocks with
  | nil => intro g nm; simp [createNodes, entriesOf]
  | cons p rest ih =>
    intro g nm
    obtain ⟨b, bb⟩ := p
    match ht : bb.terminator with
    | some t =>
      have hstep : createNodes ((b, bb) :: rest) g nm =
          createNodes rest
            { g with nodes :=
                (g.nodes ++ bb.statements.map (fun s => ⟨NType.stmt, s, b⟩)) ++ [⟨NType.term, t, b⟩] }
            ((nm ++ stmtEntriesFrom b 0 g.nodes.length bb.statements.length) ++
              [((b, .term), g.nodes.length + bb.statements.length)]) := by
        simp [createNodes, addStmts_spec, ht, Graph.addNode]
      rw [hstep, ih]
      simp [entriesOf, blockNodes, blockSize, ht, List.append_assoc, Nat.add_assoc]
    | none =>
      have hstep : createNodes ((b, bb) :: rest) g nm =
          createNodes rest
            { g with nodes := g.nodes ++ bb.statements.map (fun s => ⟨NType.stmt, s, b⟩) }
            (nm ++ stmtEntriesFrom b 0 g.nodes.length bb.statements.length) := by
        simp [createNodes, addStmts_spec, ht]
      rw [hstep, ih]
      simp [entriesOf, blockNodes, blockSize, ht, List.append_assoc]

theorem nmFind_append (xs ys : NodeMap) (k : Str × MKey) :
    nmFind (xs ++ ys) k =
      match nmFind xs k with
      | some v => some v
      | none => nmFind ys k := by
  induction xs with
  | nil => simp [nmFind]
  | cons p t ih =>
    obtain ⟨k0, v0⟩ := p
    by_cases h : k0 = k
    · simp [nmFind, h]
    · simp [nmFind, h, ih]

theorem nmFind_stmtEntriesFrom_idx (b b' : Str) (n : Nat) :
    ∀ (i v i' : Nat),
      nmFind (stmtEntriesFrom b i v n) (b', .idx i') =
        if b' = b ∧ i ≤ i' ∧ i' < i + n then some (v + (i' - i)) else none := by
  induction n with
  | zero =>
    intro i v i'
    rw [if_neg]
    · rfl
    · rintro ⟨_, h1, h2⟩
      omega
  | succ n ih =>
    intro i v i'
    simp only [stmtEntriesFrom, nmFind]
    by_cases hk : (b, MKey.idx i) = (b', MKey.idx i')
    · injection hk with hb hmk
      injection hmk with hi
      subst hb
      subst hi
      rw [if_pos rfl, if_pos ⟨rfl, Nat.le_refl _, by omega⟩]
      congr 1
      omega
    · rw [if_neg hk, ih (i + 1) (v + 1) i']
      by_cases hc : b' = b ∧ i + 1 ≤ i' ∧ i' < i + 1 + n
      · rw [if_pos hc, if_pos ⟨hc.1, by omega, by omega⟩]
        congr 1
        omega
      · have hc2 : ¬(b' = b ∧ i ≤ i' ∧ i' < i + (n + 1)) := by
          rintro ⟨hb, h1, h2⟩
          by_cases hii : i' = i
          · subst hb
            subst hii
            exact hk rfl
          · exact hc ⟨hb, by omega, by omega⟩
        rw [if_neg hc, if_neg hc2]

theorem nmFind_stmtEntriesFrom_term (b b' : Str) (n : Nat) :
    ∀ (i v : Nat), nmFind (stmtEntriesFrom b i v n) (b', .term) = none := by
  induction n with
  | zero => intro i v; rfl
  | succ n ih =>
    intro i v
    simp [stmtEntriesFrom, nmFind, ih]

theorem length_blockNodes (b : Str) (bb : BBlock) :
    (blockNodes b bb).length = blockSize bb := by
  cases h : bb.terminator <;> simp [blockNodes, blockSize, h]

theorem nmFind_entriesOf_absent (blocks : List (Str × BBlock)) :
    ∀ (s : Nat) (b : Str) (mk : MKey), b ∉ blocks.map Prod.fst →
      nmFind (entriesOf s blocks) (b, mk) = none := by
  induction blocks with
  | nil => intro s b mk _; rfl
  | cons p rest ih =>
    intro s b mk hb
    obtain ⟨b0, bb⟩ := p
    have hb0 : ¬b0 = b := by
      intro h
      apply hb
      rw [List.map_cons, h]
      exact List.mem_cons_self _ _
    have hbr : b ∉ rest.map Prod.fst := by
      intro h
      apply hb
      rw [List.map_cons]
      exact List.mem_cons_of_mem _ h
    simp only [entriesOf]
    rw [nmFind_append, nmFind_append]
    cases mk with
    | idx i =>
      rw [nmFind_stmtEntriesFrom_idx]
      rw [if_neg (by rintro ⟨h, _, _⟩; exact hb0 h.symm)]
      cases ht : bb.terminator <;> simp [nmFind, hb0, ih _ _ _ hbr]
    | term =>
      rw [nmFind_stmtEntriesFrom_term]
      cases ht : bb.terminator <;> simp [nmFind, hb0, ih _ _ _ hbr]

theorem nmFind_append_some {xs ys : NodeMap} {k : Str × MKey} {v : Nat}
    (h : nmFind xs k = some v) : nmFind (xs ++ ys) k = some v := by
  rw [nmFind_append, h]

theorem nmFind_append_none {xs ys : NodeMap} {k : Str × MKey}
    (h : nmFind xs k = none) : nmFind (xs ++ ys) k = nmFind ys k := by
  rw [nmFind_append, h]

/-- Lookup in the node map built by `_create_nodes`, for a block present
in a duplicate-free block list: statement keys resolve to consecutive
handles at the block's offset, the terminator key right after them, other
keys of the block to `none`; and the handles index the block's own nodes
inside the node arena. -/
theorem nmFind_entriesOf_found (blocks : List (Str × BBlock)) :
    ∀ (b : Str) (bb : BBlock), (blocks.map Prod.fst).Nodup → (b, bb) ∈ blocks →
      ∀ s : Nat, ∃ off : Nat,
        (∀ i, i < bb.statements.length →
          nmFind (entriesOf s blocks) (b, .idx i) = some (s + off + i)) ∧
        (∀ tm, bb.terminator = some tm →
          nmFind (entriesOf s blocks) (b, .term) = some (s + off + bb.statements.length)) ∧
        (∀ i, bb.statements.length ≤ i →
          nmFind (entriesOf s blocks) (b, .idx i) = none) ∧
        (bb.terminator = none → nmFind (entriesOf s blocks) (b, .term) = none) ∧
        (∀ j, j < blockSize bb →
          (blocks.flatMap (fun p => blockNodes p.1 p.2)).get? (off + j) =
            (blockNodes b bb).get? j) := by
  induction blocks with
  | nil => intro b bb _ hmem s; cases hmem
  | cons p rest ih =>
    intro b bb hnd hmem s
    obtain ⟨b0, bb0⟩ := p
    rw [List.map_cons] at hnd
    have hnd1 := (List.nodup_cons.mp hnd).1
    have hnd2 := (List.nodup_cons.mp hnd).2
    rcases List.mem_cons.mp hmem with heq | htail
    · rw [Prod.mk.injEq] at heq
      obtain ⟨hb, hbb⟩ := heq
      subst hb
      subst hbb
      have hbr : b ∉ rest.map Prod.fst := hnd1
      refine ⟨0, ?_, ?_, ?_, ?_, ?_⟩
      · intro i hi
        simp only [entriesOf]
        apply nmFind_append_some
        apply nmFind_append_some
        rw [nmFind_stmtEntriesFrom_idx, if_pos ⟨rfl, Nat.zero_le _, by omega⟩]
        congr 1
      · intro tm htm
        simp only [entriesOf, htm]
        apply nmFind_append_some
        rw [nmFind_append, nmFind_stmtEntriesFrom_term]
        simp [nmFind]
      · intro i hi
        simp only [entriesOf]
        rw [nmFind_append, nmFind_append, nmFind_stmtEntriesFrom_idx,
          if_neg (by rintro ⟨_, _, h2⟩; omega)]
        cases ht : bb.terminator <;>
          simp [nmFind, nmFind_entriesOf_absent rest _ _ _ hbr]
      · intro htn
        simp only [entriesOf, htn]
        rw [nmFind_append, nmFind_append, nmFind_stmtEntriesFrom_term]
        simp [nmFind, nmFind_entriesOf_absent rest _ _ _ hbr]
      · intro j hj
        simp only [List.flatMap_cons]
        rw [List.get?_append (by rw [length_blockNodes]; omega), Nat.zero_add]
    · have hmemf : b ∈ rest.map Prod.fst := by
        have : (b, bb).1 ∈ rest.map Prod.fst := List.mem_map_of_mem Prod.fst htail
        exact this
      have hb0 : ¬b0 = b := by
        intro h
        rw [h] at hnd1
        exact hnd1 hmemf
      obtain ⟨off', h1, h2, h3, h4, h5⟩ := ih b bb hnd2 htail (s + blockSize bb0)
      have hskip : ∀ mk : MKey,
          nmFind (entriesOf s ((b0, bb0) :: rest)) (b, mk) =
            nmFind (entriesOf (s + blockSize bb0) rest) (b, mk) := by
        intro mk
        simp only [entriesOf]
        rw [nmFind_append, nmFind_append]
        cases mk with
        | idx i =>
          rw [nmFind_stmtEntriesFrom_idx, if_neg (by rintro ⟨h, _, _⟩; exact hb0 h.symm)]
          cases ht : bb0.terminator <;> simp [nmFind, hb0]
        | term =>
          rw [nmFind_stmtEntriesFrom_term]
          cases ht : bb0.terminator <;> simp [nmFind, hb0]
      refine ⟨blockSize bb0 + off', ?_, ?_, ?_, ?_, ?_⟩
      · intro i hi
        rw [hskip, h1 i hi]
        congr 1
        omega
      · intro tm htm
        rw [hskip, h2 tm htm]
        congr 1
        omega
      · intro i hi
        rw [hskip, h3 i hi]
      · intro htn
        rw [hskip, h4 htn]
      · intro j hj
        simp only [List.flatMap_cons]
        rw [List.get?_append_right (by rw [length_blockNodes]; omega)]
        rw [length_blockNodes,
          show blockSize bb0 + off' + j - blockSize bb0 = off' + j from by omega]
        exact h5 j hj

/-- The node-creation phase of `build_graph` on a fresh builder. -/
def builderInit (f : FuncRec) : Graph × NodeMap :=
  createNodes f.basicBlocks Graph.empty []

theorem builderInit_eq (f : FuncRec) :
    builderInit f =
      (⟨f.basicBlocks.flatMap (fun p => blockNodes p.1 p.2), []⟩,
        entriesOf 0 f.basicBlocks) := by
  simp [builderInit, createNodes_spec, Graph.empty]

/-- Claim C4: a CFG edge's destination resolves to the target block's
first statement node when the block has a statement, else to its
terminator node, and when the target block has no nodes at all (empty or
unknown block) the edge is silently dropped. -/
theorem c4_cfg_target_resolution (f : FuncRec)
    (hnd : (f.basicBlocks.map Prod.fst).Nodup) :
    (∀ (b : Str) (bb : BBlock), (b, bb) ∈ f.basicBlocks →
      (∀ s0 srest, bb.statements = s0 :: srest →
        ∃ t : Nat, nmFind (builderInit f).2 (b, .idx 0) = some t ∧
          (builderInit f).1.nodes.get? t = some ⟨.stmt, s0, b⟩ ∧
          ∀ (g : Graph) (src : Nat) (label : Str),
            addCfg (builderInit f).2 g src b label = g.addEdge src t (.cfg label)) ∧
      (∀ tm, bb.statements = [] → bb.terminator = some tm →
        ∃ t : Nat, nmFind (builderInit f).2 (b, .term) = some t ∧
          (builderInit f).1.nodes.get? t = some ⟨.term, tm, b⟩ ∧
          ∀ (g : Graph) (src : Nat) (label : Str),
            addCfg (builderInit f).2 g src b label = g.addEdge src t (.cfg label)) ∧
      (bb.statements = [] → bb.terminator = none →
        ∀ (g : Graph) (src : Nat) (label : Str),
          addCfg (builderInit f).2 g src b label = g)) ∧
    (∀ b : Str, b ∉ f.basicBlocks.map Prod.fst →
      ∀ (g : Graph) (src : Nat) (label : Str),
        addCfg (builderInit f).2 g src b label = g) := by
  rw [builderInit_eq]
  constructor
  · intro b bb hmem
    obtain ⟨off, h1, h2, h3, h4, h5⟩ := nmFind_entriesOf_found f.basicBlocks b bb hnd hmem 0
    refine ⟨?_, ?_, ?_⟩
    · intro s0 srest hst
      have hpos : 0 < bb.statements.length := by rw [hst]; simp
      refine ⟨0 + off + 0, h1 0 hpos, ?_, ?_⟩
      · have hb0 : 0 < blockSize bb := by
          cases bb.terminator <;> simp [blockSize, hst] <;> omega
        rw [Nat.zero_add, h5 0 hb0]
        simp [blockNodes, hst]
      · intro g src label
        simp only [addCfg, h1 0 hpos]
    · intro tm hst htm
      have hb0 : 0 < blockSize bb := by simp [blockSize, htm]
      refine ⟨0 + off + bb.statements.length, h2 tm htm, ?_, ?_⟩
      · rw [Nat.zero_add, hst, List.length_nil, h5 0 hb0]
        simp [blockNodes, hst, htm]
      · intro g src label
        simp only [addCfg, h3 0 (by simp [hst]), h2 tm htm]
    · intro hst htn g src label
      simp only [addCfg, h3 0 (by simp [hst]), h4 htn]
  · intro b hb g src label
    simp only [addCfg, nmFind_entriesOf_absent _ _ _ _ hb]

/-- A three-block record for the C4 witness: `bb1` has no statements but a
terminator, `bb2` has no nodes at all. -/
def fcfg : FuncRec :=
  ⟨[], [("bb0".toList, ⟨["_1 = 1;".toList], some "goto -> bb1;".toList⟩),
      ("bb1".toList, ⟨[], some "return;".toList⟩),
      ("bb2".toList, ⟨[], none⟩)]⟩

/-- Witness for C4: the dropped-edge cases at concrete inputs (empty block
`bb2`, unknown block `bb9`). -/
theorem c4_cfg_target_resolution_witness :
    addCfg (builderInit fcfg).2 (Graph.mk [] []) 0 "bb2".toList "goto".toList =
        Graph.mk [] [] ∧
      addCfg (builderInit fcfg).2 (Graph.mk [] []) 0 "bb9".toList "goto".toList =
        Graph.mk [] [] :=
  ⟨((c4_cfg_target_resolution fcfg (by decide)).1 "bb2".toList ⟨[], none⟩
        (by decide)).2.2 rfl rfl (Graph.mk [] []) 0 "goto".toList,
    (c4_cfg_target_resolution fcfg (by decide)).2 "bb9".toList (by decide)
      (Graph.mk [] []) 0 "goto".toList⟩

/-! ### switchInt edge fan-out (C5) -/

/-- The destination `_add_cfg` resolves for a target block, if any. -/
def resolveTgt (nm : NodeMap) (t : Str) : Option Nat :=
  match nmFind nm (t, .idx 0) with
  | some v => some v
  | none => nmFind nm (t, .term)

theorem addCfg_edges (nm : NodeMap) (g : Graph) (src : Nat) (t : Str) (label : Str) :
    (addCfg nm g src t label).edges =
      g.edges ++ ((resolveTgt nm t).map (fun v => Edge.mk src v (.cfg label))).toList := by
  unfold addCfg resolveTgt
  cases h0 : nmFind nm (t, .idx 0) with
  | some v => simp [Graph.addEdge]
  | none => cases h1 : nmFind nm (t, .term) <;> simp [Graph.addEdge]

theorem foldl_addCfg_edges (nm : NodeMap) (src : Nat) (label : Str) (ts : List Str) :
    ∀ g : Graph,
      (ts.foldl (fun h t => addCfg nm h src t label) g).edges =
        g.edges ++
          ts.filterMap
            (fun t => (resolveTgt nm t).map (fun v => Edge.mk src v (.cfg label))) := by
  induction ts with
  | nil => intro g; simp
  | cons t ts ih =>
    intro g
    rw [List.foldl_cons, ih, addCfg_edges]
    cases h : resolveTgt nm t <;> simp [List.filterMap_cons, h]

/-- The concrete two-target switch function of the spec's test scenario. -/
def fswitch : FuncRec :=
  ⟨[], [("bb0".toList, ⟨[], some "switchInt(move _1) -> [0: bb1, otherwise: bb2];".toList⟩),
      ("bb1".toList, ⟨[], some "return;".toList⟩),
      ("bb2".toList, ⟨[], some "return;".toList⟩)]⟩

/-- Claim C5: a `switchInt` terminator creates one `switch`-labeled CFG
edge toward every `bbN` token found inside the bracket, including the
`otherwise` target; the concrete two-target switch yields exactly two
switch edges, to `bb1` and `bb2`. -/
theorem c5_switch_edges :
    (∀ (nm : NodeMap) (g : Graph) (src : Nat) (raw inner : Str),
        switchSearch raw = some inner → gotoSearch raw = none → callSearch raw = none →
        (cfgForTerm nm g src raw).edges =
          g.edges ++
            (findBBs inner).filterMap
              (fun t =>
                (resolveTgt nm t).map (fun v => Edge.mk src v (.cfg "switch".toList)))) ∧
    findBBs "0: bb1, otherwise: bb2".toList = ["bb1".toList, "bb2".toList] ∧
    (buildGraph fswitch).nodes =
      [⟨NType.term, "switchInt(move _1) -> [0: bb1, otherwise: bb2];".toList, "bb0".toList⟩,
        ⟨NType.term, "return;".toList, "bb1".toList⟩,
        ⟨NType.term, "return;".toList, "bb2".toList⟩] ∧
    (buildGraph fswitch).edges =
      [⟨0, 1, .cfg "switch".toList⟩, ⟨0, 2, .cfg "switch".toList⟩] := by
  refine ⟨?_, by decide, by decide, by decide⟩
  intro nm g src raw inner hsw hgoto hcall
  simp only [cfgForTerm, hsw, hgoto, hcall]
  exact foldl_addCfg_edges nm src _ (findBBs inner) g

/-- Witness for C5: the fan-out equation at a concrete switch terminator
and node map. -/
theorem c5_switch_edges_witness :
    (cfgForTerm [(("bb1".toList, MKey.term), 3)] (Graph.mk [] []) 9
        "switchInt(move _1) -> [0: bb1, otherwise: bb2];".toList).edges =
      ([] : List Edge) ++
        (findBBs "0: bb1, otherwise: bb2".toList).filterMap
          (fun t =>
            (resolveTgt [(("bb1".toList, MKey.term), 3)] t).map
              (fun v => Edge.mk 9 v (.cfg "switch".toList))) :=
  c5_switch_edges.1 [(("bb1".toList, MKey.term), 3)] (Graph.mk [] []) 9 _ _
    (by decide) (by decide) (by decide)

/-! ### No DFG self-loops (C10): node-map injectivity machinery -/

/-- Statement keys of a block, from index `i`. -/
def idxKeys (b : Str) : Nat → Nat → List (Str × MKey)
  | _, 0 => []
  | i, n + 1 => (b, .idx i) :: idxKeys b (i + 1) n

/-- All node-map keys a block contributes. -/
def blockKeys (b : Str) (bb : BBlock) : List (Str × MKey) :=
  idxKeys b 0 bb.statements.length ++
    (match bb.terminator with | some _ => [(b, .term)] | none => [])

theorem stmtEntriesFrom_fst (b : Str) (n : Nat) :
    ∀ i v, (stmtEntriesFrom b i v n).map Prod.fst = idxKeys b i n := by
  induction n with
  | zero => intro i v; rfl
  | succ n ih => intro i v; simp [stmtEntriesFrom, idxKeys, ih]

theorem entriesOf_fst (blocks : List (Str × BBlock)) :
    ∀ s, (entriesOf s blocks).map Prod.fst =
      blocks.flatMap (fun p => blockKeys p.1 p.2) := by
  induction blocks with
  | nil => intro s; rfl
  | cons p rest ih =>
    intro s
    obtain ⟨b, bb⟩ := p
    cases ht : bb.terminator <;>
      simp [entriesOf, blockKeys, ht, stmtEntriesFrom_fst, ih, List.flatMap_cons]

theorem idxKeys_mem (b : Str) (n : Nat) :
    ∀ i k, k ∈ idxKeys b i n → ∃ j, k = (b, MKey.idx j) ∧ i ≤ j ∧ j < i + n := by
  induction n with
  | zero => intro i k hk; cases hk
  | succ n ih =>
    intro i k hk
    rcases List.mem_cons.mp hk with h | h
    · exact ⟨i, h, Nat.le_refl _, by omega⟩
    · obtain ⟨j, hj1, hj2, hj3⟩ := ih (i + 1) k h
      exact ⟨j, hj1, by omega, by omega⟩

theorem idxKeys_nodup (b : Str) (n : Nat) : ∀ i, (idxKeys b i n).Nodup := by
  induction n with
  | zero => intro i; exact List.nodup_nil
  | succ n ih =>
    intro i
    rw [idxKeys, List.nodup_cons]
    refine ⟨?_, ih (i + 1)⟩
    intro hmem
    obtain ⟨j, hj1, hj2, _⟩ := idxKeys_mem b n (i + 1) _ hmem
    rw [Prod.mk.injEq] at hj1
    have : i = j := by
      have := hj1.2
      injection this
    omega

theorem blockKeys_fst (b : Str) (bb : BBlock) (k : Str × MKey) (hk : k ∈ blockKeys b bb) :
    k.1 = b := by
  rcases List.mem_append.mp hk with h | h
  · obtain ⟨j, hj, _, _⟩ := idxKeys_mem b _ 0 k h
    rw [hj]
  · cases ht : bb.terminator <;> rw [ht] at h
    · cases h
    · rcases List.mem_cons.mp h with h1 | h1
      · rw [h1]
      · cases h1

theorem blockKeys_nodup (b : Str) (bb : BBlock) : (blockKeys b bb).Nodup := by
  cases ht : bb.terminator with
  | none => simpa [blockKeys, ht] using idxKeys_nodup b _ 0
  | some t =>
    rw [blockKeys, ht]
    refine (idxKeys_nodup b _ 0).append (List.nodup_singleton _) ?_
    intro k hk hk2
    obtain ⟨j, hj, _, _⟩ := idxKeys_mem b _ 0 k hk
    rcases List.mem_cons.mp hk2 with h1 | h1
    · rw [hj] at h1
      rw [Prod.mk.injEq] at h1
      cases h1.2
    · cases h1

/-- Keys across a duplicate-free block list are duplicate-free. -/
theorem flatKeys_nodup (blocks : List (Str × BBlock))
    (hnd : (blocks.map Prod.fst).Nodup) :
    (blocks.flatMap (fun p => blockKeys p.1 p.2)).Nodup := by
  induction blocks with
  | nil => exact List.nodup_nil
  | cons p rest ih =>
    obtain ⟨b, bb⟩ := p
    rw [List.map_cons, List.nodup_cons] at hnd
    rw [List.flatMap_cons]
    refine (blockKeys_nodup b bb).append (ih hnd.2) ?_
    intro k hk hk2
    have hkb : k.1 = b := blockKeys_fst b bb k hk
    obtain ⟨q, hq, hkq⟩ := List.mem_flatMap.mp hk2
    have hkq1 : k.1 = q.1 := blockKeys_fst q.1 q.2 k hkq
    apply hnd.1
    rw [← hkb, hkq1]
    exact List.mem_map_of_mem Prod.fst hq

theorem stmtEntriesFrom_snd_bounds (b : Str) (n : Nat) :
    ∀ i v, ∀ e ∈ stmtEntriesFrom b i v n, v ≤ e.2 ∧ e.2 < v + n := by
  induction n with
  | zero => intro i v e he; cases he
  | succ n ih =>
    intro i v e he
    rcases List.mem_cons.mp he with h | h
    · rw [h]
      exact ⟨Nat.le_refl _, by omega⟩
    · obtain ⟨h1, h2⟩ := ih (i + 1) (v + 1) e h
      exact ⟨by omega, by omega⟩

theorem stmtEntriesFrom_snd_nodup (b : Str) (n : Nat) :
    ∀ i v, ((stmtEntriesFrom b i v n).map Prod.snd).Nodup := by
  induction n with
  | zero => intro i v; exact List.nodup_nil
  | succ n ih =>
    intro i v
    rw [stmtEntriesFrom, List.map_cons, List.nodup_cons]
    refine ⟨?_, ih (i + 1) (v + 1)⟩
    intro hmem
    obtain ⟨e, he, hev⟩ := List.mem_map.mp hmem
    have := (stmtEntriesFrom_snd_bounds b n (i + 1) (v + 1) e he).1
    omega

theorem blocksSize_cons (b : Str) (bb : BBlock) (rest : List (Str × BBlock)) :
    blocksSize ((b, bb) :: rest) = blockSize bb + blocksSize rest := by
  simp [blocksSize]

theorem entriesOf_snd_bounds (blocks : List (Str × BBlock)) :
    ∀ s, ∀ e ∈ entriesOf s blocks, s ≤ e.2 ∧ e.2 < s + blocksSize blocks := by
  induction blocks with
  | nil => intro s e he; cases he
  | cons p rest ih =>
    intro s e he
    obtain ⟨b, bb⟩ := p
    rw [blocksSize_cons]
    simp only [entriesOf] at he
    rcases List.mem_append.mp he with h | h
    · rcases List.mem_append.mp h with h1 | h1
      · have := stmtEntriesFrom_snd_bounds b bb.statements.length 0 s e h1
        have hsz : bb.statements.length ≤ blockSize bb := by
          cases bb.terminator <;> simp [blockSize] <;> omega
        exact ⟨this.1, by omega⟩
      · cases ht : bb.terminator <;> rw [ht] at h1
        · cases h1
        · rcases List.mem_cons.mp h1 with h2 | h2
          · rw [h2]
            have hsz : bb.statements.length < blockSize bb := by simp [blockSize, ht]
            exact ⟨by omega, by omega⟩
          · cases h2
    · obtain ⟨h1, h2⟩ := ih (s + blockSize bb) e h
      exact ⟨by omega, by omega⟩

theorem entriesOf_snd_nodup (blocks : List (Str × BBlock)) :
    ∀ s, ((entriesOf s blocks).map Prod.snd).Nodup := by
  induction blocks with
  | nil => intro s; exact List.nodup_nil
  | cons p rest ih =>
    intro s
    obtain ⟨b, bb⟩ := p
    simp only [entriesOf, List.map_append]
    have hns : bb.statements.length ≤ blockSize bb := by
      cases bb.terminator <;> simp [blockSize] <;> omega
    refine List.Nodup.append (List.Nodup.append (stmtEntriesFrom_snd_nodup b _ 0 s) ?_ ?_)
      (ih (s + blockSize bb)) ?_
    · cases ht : bb.terminator <;> simp
    · intro x hx hx2
      obtain ⟨e, he, hev⟩ := List.mem_map.mp hx
      have hb := stmtEntriesFrom_snd_bounds b _ 0 s e he
      cases ht : bb.terminator <;> rw [ht] at hx2 <;> simp at hx2
      omega
    · intro x hx hx2
      obtain ⟨e2, he2, hev2⟩ := List.mem_map.mp hx2
      have hb2 := entriesOf_snd_bounds rest (s + blockSize bb) e2 he2
      rcases List.mem_append.mp hx with h1 | h1
      · obtain ⟨e, he, hev⟩ := List.mem_map.mp h1
        have hb := stmtEntriesFrom_snd_bounds b _ 0 s e he
        omega
      · cases ht : bb.terminator <;> rw [ht] at h1 <;> simp at h1
        have hsz : bb.statements.length < blockSize bb := by simp [blockSize, ht]
        omega

theorem nmFind_some_mem_snd (m : NodeMap) :
    ∀ k v, nmFind m k = some v → v ∈ m.map Prod.snd := by
  induction m with
  | nil => intro k v h; cases h
  | cons p t ih =>
    intro k v h
    obtain ⟨k0, v0⟩ := p
    rw [nmFind] at h
    by_cases hk : k0 = k
    · rw [if_pos hk] at h
      injection h with h
      rw [List.map_cons]
      rw [← h]
      exact List.mem_cons_self _ _
    · rw [if_neg hk] at h
      exact List.mem_cons_of_mem _ (ih k v h)

theorem nmFind_inj (m : NodeMap) (hv : (m.map Prod.snd).Nodup) :
    ∀ k1 k2 v, nmFind m k1 = some v → nmFind m k2 = some v → k1 = k2 := by
  induction m with
  | nil => intro k1 k2 v h; cases h
  | cons p t ih =>
    intro k1 k2 v h1 h2
    obtain ⟨k0, v0⟩ := p
    rw [List.map_cons, List.nodup_cons] at hv
    rw [nmFind] at h1 h2
    by_cases e1 : k0 = k1 <;> by_cases e2 : k0 = k2
    · rw [← e1, ← e2]
    · rw [if_pos e1] at h1
      rw [if_neg e2] at h2
      injection h1 with h1
      rw [h1] at hv
      exact absurd (nmFind_some_mem_snd t k2 v h2) hv.1
    · rw [if_neg e1] at h1
      rw [if_pos e2] at h2
      injection h2 with h2
      rw [h2] at hv
      exact absurd (nmFind_some_mem_snd t k1 v h1) hv.1
    · rw [if_neg e1] at h1
      rw [if_neg e2] at h2
      exact ih hv.2 k1 k2 v h1 h2

theorem nmFind_isSome_of_mem_fst (m : NodeMap) :
    ∀ k, k ∈ m.map Prod.fst → (nmFind m k).isSome := by
  induction m with
  | nil => intro k h; cases h
  | cons p t ih =>
    intro k h
    obtain ⟨k0, v0⟩ := p
    rw [nmFind]
    by_cases hk : k0 = k
    · rw [if_pos hk]
      rfl
    · rw [if_neg hk]
      rcases List.mem_cons.mp h with h1 | h1


      · exact absurd h1.symm hk
      · exact ih k h1

theorem map_lookup_nodup (m : NodeMap) (hv : (m.map Prod.snd).Nodup) :
    ∀ ks : List (Str × MKey), ks.Nodup → (∀ k ∈ ks, k ∈ m.map Prod.fst) →
      (ks.map (fun k => (nmFind m k).getD 0)).Nodup := by
  intro ks
  induction ks with
  | nil => intro _ _; exact List.nodup_nil
  | cons k t ih =>
    intro hnd hpres
    rw [List.nodup_cons] at hnd
    rw [List.map_cons, List.nodup_cons]
    refine ⟨?_, ih hnd.2 (fun k' hk' => hpres k' (List.mem_cons_of_mem _ hk'))⟩
    intro hmem
    obtain ⟨k', hk', heq⟩ := List.mem_map.mp hmem
    obtain ⟨v, hvk⟩ := Option.isSome_iff_exists.mp
      (nmFind_isSome_of_mem_fst m k (hpres k (List.mem_cons_self _ _)))
    obtain ⟨v', hvk'⟩ := Option.isSome_iff_exists.mp
      (nmFind_isSome_of_mem_fst m k' (hpres k' (List.mem_cons_of_mem _ hk')))
    rw [hvk, hvk'] at heq
    simp only [Option.getD_some] at heq
    have : k' = k := nmFind_inj m hv k' k v' hvk' (by rw [hvk, heq])
    rw [this] at hk'
    exact hnd.1 hk'

theorem insertStable_perm (key : Str × BBlock → Nat) (x : Str × BBlock) :
    ∀ l, (insertStable key x l).Perm (x :: l) := by
  intro l
  induction l with
  | nil => exact List.Perm.refl _
  | cons y t ih =>
    rw [insertStable]
    by_cases h : key y ≤ key x
    · rw [if_pos h]
      exact (ih.cons y).trans (List.Perm.swap x y t)
    · rw [if_neg h]

theorem foldl_insertStable_perm (key : Str × BBlock → Nat) (l : List (Str × BBlock)) :
    ∀ acc, (l.foldl (fun acc x => insertStable key x acc) acc).Perm (acc ++ l) := by
  induction l with
  | nil => intro acc; simp
  | cons x t ih =>
    intro acc
    rw [List.foldl_cons]
    refine (ih (insertStable key x acc)).trans ?_
    refine (List.Perm.append_right t (insertStable_perm key x acc)).trans ?_
    exact List.perm_middle.symm

theorem sortBlocks_perm (blocks : List (Str × BBlock)) : (sortBlocks blocks).Perm blocks := by
  simpa using foldl_insertStable_perm (fun p => labelNum p.1) blocks []

theorem dfgStmtSeq_fst (nm : NodeMap) (b : Str) (stmts : List Str) :
    ∀ i, (dfgStmtSeq nm b stmts i).map Prod.fst =
      (idxKeys b i stmts.length).map (fun k => (nmFind nm k).getD 0) := by
  induction stmts with
  | nil => intro i; rfl
  | cons s rest ih => intro i; simp [dfgStmtSeq, idxKeys, ih]

theorem dfgSeq_fst (nm : NodeMap) (blocks : List (Str × BBlock)) :
    (dfgSeq nm blocks).map Prod.fst =
      ((sortBlocks blocks).flatMap (fun p => blockKeys p.1 p.2)).map
        (fun k => (nmFind nm k).getD 0) := by
  rw [dfgSeq, List.map_flatMap, List.map_flatMap]
  congr 1
  funext p
  rw [List.map_append, dfgStmtSeq_fst nm p.1 p.2.statements 0, blockKeys, List.map_append]
  congr 1
  cases ht : p.2.terminator <;> simp

theorem dfgSeq_fst_nodup (blocks : List (Str × BBlock))
    (hnd : (blocks.map Prod.fst).Nodup) :
    ((dfgSeq (entriesOf 0 blocks) blocks).map Prod.fst).Nodup := by
  rw [dfgSeq_fst]
  refine map_lookup_nodup (entriesOf 0 blocks) (entriesOf_snd_nodup blocks 0) _ ?_ ?_
  · exact flatKeys_nodup (sortBlocks blocks)
      ((((sortBlocks_perm blocks).map Prod.fst).symm).nodup hnd)
  · intro k hk
    rw [entriesOf_fst]
    obtain ⟨p, hp, hkp⟩ := List.mem_flatMap.mp hk
    exact List.mem_flatMap.mpr ⟨p, (sortBlocks_perm blocks).subset hp, hkp⟩

theorem defsFind_some_mem_snd (defs : Defs) :
    ∀ k v, defsFind defs k = some v → v ∈ defs.map Prod.snd := by
  induction defs with
  | nil => intro k v h; cases h
  | cons p t ih =>
    intro k v h
    obtain ⟨k0, v0⟩ := p
    rw [defsFind] at h
    by_cases hk : k0 = k
    · rw [if_pos hk] at h
      injection h with h
      rw [List.map_cons, ← h]
      exact List.mem_cons_self _ _
    · rw [if_neg hk] at h
      exact List.mem_cons_of_mem _ (ih k v h)

theorem addUseEdges_mem (defs : Defs) (nodeId : Nat) (us : List Str) (g : Graph) :
    ∀ e ∈ (addUseEdges defs nodeId us g).edges,
      e ∈ g.edges ∨ (e.dst = nodeId ∧ e.data = .dfg ∧ e.src ∈ defs.map Prod.snd) := by
  intro e he
  rw [addUseEdges_edges] at he
  rcases List.mem_append.mp he with h | h
  · exact Or.inl h
  · obtain ⟨v, hv, hev⟩ := List.mem_filterMap.mp h
    obtain ⟨d, hd, hed⟩ := Option.map_eq_some'.mp hev
    right
    rw [← hed]
    exact ⟨rfl, rfl, defsFind_some_mem_snd defs v d hd⟩

theorem processDfg_edges (raw : Str) (nodeId : Nat) (g : Graph) (defs : Defs) :
    ∀ e ∈ (processDfg raw nodeId g defs).1.edges,
      e ∈ g.edges ∨ (e.dst = nodeId ∧ e.data = .dfg ∧ e.src ∈ defs.map Prod.snd) := by
  cases hm : assignMatch raw with
  | none =>
    intro e he
    have hu : (processDfg raw nodeId g defs).1 =
        addUseEdges defs nodeId (firstDedup (localsOf raw)) g := by
      simp [processDfg, hm]
    rw [hu] at he
    exact addUseEdges_mem _ _ _ _ e he
  | some p =>
    obtain ⟨tgt, rhs⟩ := p
    intro e he
    have hu : (processDfg raw nodeId g defs).1 =
        addUseEdges defs nodeId (firstDedup (localsOf rhs)) g := by
      cases hb : localBase tgt <;> simp [processDfg, hm, hb]
    rw [hu] at he
    exact addUseEdges_mem _ _ _ _ e he

theorem defsInsert_snd_sub (k : Str) (v : Nat) (defs : Defs) :
    ∀ x ∈ (defsInsert k v defs).map Prod.snd, x = v ∨ x ∈ defs.map Prod.snd := by
  induction defs with
  | nil =>
    intro x hx
    rcases List.mem_cons.mp hx with h | h
    · exact Or.inl h
    · cases h
  | cons p t ih =>
    intro x hx
    obtain ⟨a, w⟩ := p
    by_cases ha : a = k
    · rw [defsInsert, if_pos ha, List.map_cons] at hx
      rcases List.mem_cons.mp hx with h | h
      · exact Or.inl h
      · exact Or.inr (List.mem_cons_of_mem _ h)
    · rw [defsInsert, if_neg ha, List.map_cons] at hx
      rcases List.mem_cons.mp hx with h | h
      · exact Or.inr (by rw [List.map_cons, h]; exact List.mem_cons_self _ _)
      · rcases ih x h with h1 | h1
        · exact Or.inl h1
        · exact Or.inr (List.mem_cons_of_mem _ h1)

theorem processDfg_defs_sub (raw : Str) (nodeId : Nat) (g : Graph) (defs : Defs) :
    ∀ x ∈ ((processDfg raw nodeId g defs).2).map Prod.snd,
      x = nodeId ∨ x ∈ defs.map Prod.snd := by
  cases hm : assignMatch raw with
  | none =>
    intro x hx
    have h2 : (processDfg raw nodeId g defs).2 = defs := by simp [processDfg, hm]
    rw [h2] at hx
    exact Or.inr hx
  | some p =>
    obtain ⟨tgt, rhs⟩ := p
    cases hb : localBase tgt with
    | none =>
      intro x hx
      have h2 : (processDfg raw nodeId g defs).2 = defs := by simp [processDfg, hm, hb]
      rw [h2] at hx
      exact Or.inr hx
    | some base =>
      intro x hx
      have h2 : (processDfg raw nodeId g defs).2 = defsInsert base nodeId defs := by
        simp [processDfg, hm, hb]
      rw [h2] at hx
      exact defsInsert_snd_sub base nodeId defs x hx

/-- All edges of `g'` beyond those of `g` are CFG edges. -/
def cfgOnly (g g' : Graph) : Prop :=
  ∀ e ∈ g'.edges, e ∈ g.edges ∨ ∃ l, e.data = EData.cfg l

theorem cfgOnly_refl (g : Graph) : cfgOnly g g := fun e he => Or.inl he

theorem cfgOnly_trans {g h k : Graph} (h1 : cfgOnly g h) (h2 : cfgOnly h k) :
    cfgOnly g k := fun e he => (h2 e he).elim (fun hh => h1 e hh) Or.inr

theorem cfgOnly_addCfg (nm : NodeMap) (g : Graph) (src : Nat) (t label : Str) :
    cfgOnly g (addCfg nm g src t label) := by
  intro e he
  rw [addCfg_edges] at he
  rcases List.mem_append.mp he with h | h
  · exact Or.inl h
  · cases hr : resolveTgt nm t <;> rw [hr] at h
    · cases h
    · rcases List.mem_cons.mp h with h1 | h1
      · exact Or.inr ⟨label, by rw [h1]⟩
      · cases h1

theorem cfgOnly_foldl (nm : NodeMap) (src : Nat) (label : Str) (ts : List Str) :
    ∀ g : Graph, cfgOnly g (ts.foldl (fun h t => addCfg nm h src t label) g) := by
  induction ts with
  | nil => intro g; exact cfgOnly_refl g
  | cons t ts ih =>
    intro g
    rw [List.foldl_cons]
    exact cfgOnly_trans (cfgOnly_addCfg nm g src t label) (ih _)

theorem cfgOnly_cfgForTerm (nm : NodeMap) (src : Nat) (raw : Str) :
    ∀ g : Graph, cfgOnly g (cfgForTerm nm g src raw) := by
  intro g
  have h2 : ∀ g' : Graph, cfgOnly g'
      (match switchSearch raw with
        | some inner =>
          (findBBs inner).foldl (fun h t => addCfg nm h src t "switch".toList) g'
        | none => g') := by
    intro g'
    cases switchSearch raw
    · exact cfgOnly_refl g'
    · exact cfgOnly_foldl nm src _ _ g'
  have h3 : ∀ g' : Graph, cfgOnly g'
      (match callSearch raw with
        | some (t1, t2) =>
          addCfg nm (addCfg nm g' src t1 "return".toList) src t2 "unwind".toList
        | none => g') := by
    intro g'
    cases hc : callSearch raw with
    | none => exact cfgOnly_refl g'
    | some p =>
      obtain ⟨t1, t2⟩ := p
      exact cfgOnly_trans (cfgOnly_addCfg nm g' src _ _) (cfgOnly_addCfg nm _ src _ _)
  have h1 : cfgOnly g
      (match gotoSearch raw with
        | some t => addCfg nm g src t "goto".toList
        | none => g) := by
    cases gotoSearch raw
    · exact cfgOnly_refl g
    · exact cfgOnly_addCfg nm g src _ _
  exact cfgOnly_trans (cfgOnly_trans h1 (h2 _)) (h3 _)

theorem cfgOnly_createCfgEdges (blocks : List (Str × BBlock)) (nm : NodeMap) :
    ∀ g : Graph, cfgOnly g (createCfgEdges blocks nm g) := by
  induction blocks with
  | nil => intro g; exact cfgOnly_refl g
  | cons p rest ih =>
    intro g
    have hstep : cfgOnly g
        (match p.2.terminator with
          | none => g
          | some raw =>
            match nmFind nm (p.1, .term) with
            | none => g
            | some src => cfgForTerm nm g src raw) := by
      cases p.2.terminator with
      | none => exact cfgOnly_refl g
      | some raw =>
        cases nmFind nm (p.1, .term)
        · exact cfgOnly_refl g
        · exact cfgOnly_cfgForTerm nm _ raw g
    exact cfgOnly_trans hstep (ih _)

/-- Along a duplicate-free visit sequence whose handles are fresh for the
`seen` set, `_process_dfg` never creates a DFG self-loop: every use is
resolved against definitions recorded at earlier (distinct) handles. -/
theorem dfgFold_no_self (seq : List (Nat × Str)) :
    ∀ (g : Graph) (defs : Defs) (seen : List Nat),
      (seq.map Prod.fst).Nodup →
      (∀ p ∈ seq, p.1 ∉ seen) →
      (∀ v ∈ defs.map Prod.snd, v ∈ seen) →
      (∀ e ∈ g.edges, e.data = .dfg → e.src ≠ e.dst) →
      ∀ e ∈ (seq.foldl (fun acc p => processDfg p.2 p.1 acc.1 acc.2) (g, defs)).1.edges,
        e.data = .dfg → e.src ≠ e.dst := by
  induction seq with
  | nil => intro g defs seen _ _ _ hg; exact hg
  | cons q rest ih =>
    intro g defs seen hnd hns hdefs hg
    obtain ⟨id, raw⟩ := q
    rw [List.map_cons, List.nodup_cons] at hnd
    rw [List.foldl_cons]
    have hid : id ∉ seen := hns (id, raw) (List.mem_cons_self _ _)
    have hedges : ∀ e ∈ (processDfg raw id g defs).1.edges, e.data = .dfg → e.src ≠ e.dst := by
      intro e he hd
      rcases processDfg_edges raw id g defs e he with h | ⟨hdst, _, hsrc⟩
      · exact hg e h hd
      · intro hcontra
        apply hid
        rw [← hdst, ← hcontra]
        exact hdefs e.src hsrc
    have hdefs' : ∀ v ∈ ((processDfg raw id g defs).2).map Prod.snd, v ∈ seen ++ [id] := by
      intro v hv
      rcases processDfg_defs_sub raw id g defs v hv with h | h
      · rw [h]
        exact List.mem_append.mpr (Or.inr (List.mem_cons_self _ _))
      · exact List.mem_append.mpr (Or.inl (hdefs v h))
    have hns' : ∀ p ∈ rest, p.1 ∉ seen ++ [id] := by
      intro p hp hmem
      rcases List.mem_append.mp hmem with h | h
      · exact hns p (List.mem_cons_of_mem _ hp) h
      · rcases List.mem_cons.mp h with h1 | h1
        · have hm : p.1 ∈ rest.map Prod.fst := List.mem_map_of_mem Prod.fst hp
          rw [h1] at hm
          exact hnd.1 hm
        · cases h1
    exact ih (processDfg raw id g defs).1 (processDfg raw id g defs).2 (seen ++ [id])
      hnd.2 hns' hdefs' hedges

theorem dedupAppend_nodup (xs : List Str) :
    ∀ acc : List Str, acc.Nodup → (dedupAppend acc xs).Nodup := by
  induction xs with
  | nil => intro acc h; exact h
  | cons x t ih =>
    intro acc h
    by_cases hx : x ∈ acc
    · have : dedupAppend acc (x :: t) = dedupAppend acc t := by
        simp [dedupAppend, hx]
      rw [this]
      exact ih acc h
    · have : dedupAppend acc (x :: t) = dedupAppend (acc ++ [x]) t := by
        simp [dedupAppend, hx]
      rw [this]
      exact ih (acc ++ [x]) (h.append (List.nodup_singleton x)
        (fun a ha ha2 => hx (by rcases List.mem_cons.mp ha2 with h1 | h1
                                · rw [← h1]; exact ha
                                · cases h1)))

/-- Claim C10: every parsed function record has duplicate-free block keys,
and for any record with duplicate-free block keys the built graph contains
no DFG self-loop: uses are resolved against the definitions table before
the current node is recorded, and each node is visited exactly once. -/
theorem c10_no_dfg_self_loop :
    (∀ (lines : List Str) (name : Str) (r : FuncRec),
        parseFunctionBlock lines = some (name, r) →
        (r.basicBlocks.map Prod.fst).Nodup) ∧
    (∀ f : FuncRec, (f.basicBlocks.map Prod.fst).Nodup →
        ∀ e ∈ (buildGraph f).edges, e.data = .dfg → e.src ≠ e.dst) := by
  constructor
  · intro lines name r hp
    cases lines with
    | nil => cases hp
    | cons l0 rest =>
      rw [parseFunctionBlock] at hp
      cases hf : funcStart l0 with
      | none => rw [hf] at hp; cases hp
      | some nm =>
        rw [hf] at hp
        injection hp with hp
        rw [Prod.mk.injEq] at hp
        rw [← hp.2]
        rw [fnBody_false, fnBody_true_keys]
        exact dedupAppend_nodup _ _ List.nodup_nil
  · intro f hnd e he hd
    have hb : buildGraph f =
        createDfgEdges f.basicBlocks (entriesOf 0 f.basicBlocks)
          (createCfgEdges f.basicBlocks (entriesOf 0 f.basicBlocks)
            ⟨f.basicBlocks.flatMap (fun p => blockNodes p.1 p.2), []⟩) := by
      simp [buildGraph, createNodes_spec, Graph.empty]
    rw [hb, createDfgEdges] at he
    have hcfg : ∀ e2 ∈ (createCfgEdges f.basicBlocks (entriesOf 0 f.basicBlocks)
        ⟨f.basicBlocks.flatMap (fun p => blockNodes p.1 p.2), []⟩).edges,
        e2.data = .dfg → e2.src ≠ e2.dst := by
      intro e2 he2 hd2
      rcases cfgOnly_createCfgEdges f.basicBlocks (entriesOf 0 f.basicBlocks) _ e2 he2 with
        h | ⟨l, hl⟩
      · cases h
      · rw [hd2] at hl
        cases hl
    exact dfgFold_no_self (dfgSeq (entriesOf 0 f.basicBlocks) f.basicBlocks) _ [] []
      (dfgSeq_fst_nodup f.basicBlocks hnd) (by intro p _ h; cases h)
      (by intro v h; cases h) hcfg e he hd

/-- Witness for C10 at a concrete one-block record with one real DFG
edge. -/
theorem c10_no_dfg_self_loop_witness :
    (((⟨[], [("bb0".toList, ⟨["_1 = 1;".toList, "_2 = _1;".toList], none⟩)]⟩ :
          FuncRec).basicBlocks.map Prod.fst).Nodup) ∧
      ∀ e ∈ (buildGraph
          ⟨[], [("bb0".toList, ⟨["_1 = 1;".toList, "_2 = _1;".toList], none⟩)]⟩).edges,
        e.data = .dfg → e.src ≠ e.dst :=
  ⟨by decide,
    c10_no_dfg_self_loop.2
      ⟨[], [("bb0".toList, ⟨["_1 = 1;".toList, "_2 = _1;".toList], none⟩)]⟩ (by decide)⟩

end MirCpg
